import Mathlib

/-!
# Shallow embedding of blender/source/blender/blenlib/intern/BLI_mempool.c

The mempool is a fixed-element-size chunked allocator.  We model chunk
storage abstractly: a slot reference is a pair `(chunk id, slot index)`
(the C address `CHUNK_DATA(chunk) + esize * index`), and the byte contents
that the allocator itself reads and writes — the `BLI_freenode` overlay,
i.e. the `next` pointer and the `freeword` tag in a slot's leading bytes —
are a function `Mem` from references to `BLI_freenode` records.  Chunk
allocation (`mempool_chunk_alloc`) is modelled by drawing a fresh chunk id
from a counter `nextId` carried in the pool state; freshly allocated chunk
memory is uninitialized, which the model reflects by leaving `Mem`
unconstrained on ids that have not been written yet.  The `ListBase` of
chunks is a `List Nat` of chunk ids in list order (`BLI_addtail` appends,
`BLI_remlink` of the first element is `List.tail`); a chunk-list cursor
(`mpchunk->next` walking) is a suffix of that list.

Machine constants are those of an LP64 build: `sizeof(void *) * 2 = 16`
and `sizeof(BLI_freenode) = 16` (8-byte pointer, 4-byte int, padding).
C `int` fields (`esize`, `csize`, `totused`, the `index` argument of
`BLI_mempool_findelem`) are `Int`; counts that the claims constrain to be
non-negative (`totelem`, `pchunk`) are `Nat`, on which C's truncating
division agrees with `Nat` division.
-/

/-- A reference to one slot: (chunk id, slot index within the chunk).
This stands for the C address `CHUNK_DATA(chunk) + pool->esize * index`. -/
abbrev Ref := Nat × Nat

/-- The `BLI_freenode` overlay at the start of a slot's storage:
`struct BLI_freenode { struct BLI_freenode *next; int freeword; }`. -/
structure BLI_freenode where
  next : Option Ref
  freeword : Int
deriving Repr, DecidableEq

/-- The slot-overlay contents of all chunk memory. -/
abbrev Mem := Ref → BLI_freenode

/-- Write the `next` field of the freenode at `r` (C: `r->next = v`). -/
def writeNext (m : Mem) (r : Ref) (v : Option Ref) : Mem :=
  fun x => if x = r then { m r with next := v } else m x

/-- Write the `freeword` field of the freenode at `r` (C: `r->freeword = v`). -/
def writeFreeword (m : Mem) (r : Ref) (v : Int) : Mem :=
  fun x => if x = r then { m r with freeword := v } else m x

/-- `#define FREEWORD MAKE_ID('f', 'r', 'e', 'e')` (little endian). -/
def FREEWORD : Int := 0x65657266

/-- The in-use sentinel written by `BLI_mempool_alloc`: `0x7FFFFFFF`. -/
def USEDWORD : Int := 0x7FFFFFFF

/-- `#define MEMPOOL_ELEM_SIZE_MIN (sizeof(void *) * 2)`, LP64. -/
def MEMPOOL_ELEM_SIZE_MIN : Int := 16

/-- `sizeof(BLI_freenode)` on LP64 (8-byte pointer + 4-byte int + padding). -/
def sizeof_BLI_freenode : Int := 16

/-- `struct BLI_mempool`.  `chunks` is the `ListBase` of chunk ids in list
order; `free` is the free-list head; `mem` the slot-overlay memory; `nextId`
the source of fresh chunk ids (models `mempool_chunk_alloc`).  The C `flag`
bit-set is split into its two recognized bits. -/
structure BLI_mempool where
  chunks : List Nat
  esize : Int
  csize : Int
  pchunk : Nat
  allow_iter : Bool
  sysmalloc : Bool
  free : Option Ref
  totused : Int
  mem : Mem
  nextId : Nat

/-- `BLI_mempool_iter`: current chunk cursor (a suffix of `pool.chunks`,
`[]` playing `NULL`) and current in-chunk index. -/
structure BLI_mempool_iter where
  curchunk : List Nat
  curindex : Nat
deriving Repr, DecidableEq

/-- The body of `mempool_chunk_add`'s threading loop, iterated `fuel`
times starting at slot index `j` of chunk `cid`:
each iteration writes `curnode->next = curnode + esize` and, under
`BLI_MEMPOOL_ALLOW_ITER`, `curnode->next->freeword = FREEWORD` (except on
the last slot `pchunk_last`) and `curnode->freeword = FREEWORD`. -/
def threadSlots (allow_iter : Bool) (cid : Nat) (pchunk_last : Nat) :
    Nat → Nat → Mem → Mem
  | _, 0, m => m
  | j, fuel + 1, m =>
    let m := writeNext m (cid, j) (some (cid, j + 1))
    let m :=
      if allow_iter then
        let m := if j ≠ pchunk_last then writeFreeword m (cid, j + 1) FREEWORD else m
        writeFreeword m (cid, j) FREEWORD
      else m
    threadSlots allow_iter cid pchunk_last (j + 1) fuel m

/-- `mempool_chunk_add(pool, mpchunk, lasttail)`: append the chunk `cid`
to `pool->chunks`, seed `pool->free` if it was `NULL`, thread the chunk's
slots into a free chain, terminate it, and patch `lasttail->next` to point
at the chunk's first slot.  Returns the updated pool; the C return value
(`curnode`, the chunk's last slot) is `(cid, pool.pchunk - 1)` at the call
sites.  Faithful for `pchunk ≥ 1` (the C code dereferences NULL when
`pchunk = 0`). -/
def mempool_chunk_add (pool : BLI_mempool) (cid : Nat) (lasttail : Option Ref) :
    BLI_mempool :=
  let pchunk_last := pool.pchunk - 1
  let pool := { pool with chunks := pool.chunks ++ [cid] }
  let pool :=
    if pool.free = none then
      let m := if pool.allow_iter then writeFreeword pool.mem (cid, 0) FREEWORD else pool.mem
      { pool with free := some (cid, 0), mem := m }
    else pool
  let m := threadSlots pool.allow_iter cid pchunk_last 0 pool.pchunk pool.mem
  let m := writeNext m (cid, pchunk_last) none
  let m :=
    match lasttail with
    | some lt =>
      let m := writeNext m lt (some (cid, 0))
      if pool.allow_iter then writeFreeword m lt FREEWORD else m
    | none => m
  { pool with mem := m }

/-- The chunk-allocation loop of `BLI_mempool_create`: `n` more chunks to
allocate, `lasttail` the last slot of the previously added chunk. -/
def createChunks (pool : BLI_mempool) (lasttail : Option Ref) : Nat → BLI_mempool
  | 0 => pool
  | n + 1 =>
    let cid := pool.nextId
    let pool := { pool with nextId := cid + 1 }
    let pool := mempool_chunk_add pool cid lasttail
    createChunks pool (some (cid, pool.pchunk - 1)) n

/-- `BLI_mempool_create(esize, totelem, pchunk, flag)`.  `m0` is the
(arbitrary, uninitialized) initial contents of chunk memory; chunk ids are
drawn starting from `0`. -/
def BLI_mempool_create (esize : Int) (totelem pchunk : Nat)
    (allow_iter sysmalloc : Bool) (m0 : Mem) : BLI_mempool :=
  let esize := if esize < MEMPOOL_ELEM_SIZE_MIN then MEMPOOL_ELEM_SIZE_MIN else esize
  let pool : BLI_mempool :=
    { chunks := []
      esize := if allow_iter then max esize sizeof_BLI_freenode else esize
      csize := esize * (pchunk : Int)
      pchunk := pchunk
      allow_iter := allow_iter
      sysmalloc := sysmalloc
      free := none
      totused := 0
      mem := m0
      nextId := 0 }
  let maxchunks := totelem / pchunk + 1
  let maxchunks := if maxchunks = 0 then 1 else maxchunks
  createChunks pool none maxchunks

/-- `BLI_mempool_alloc(pool)`: returns the updated pool and the returned
slot reference.  The `none` fallback is unreachable whenever
`pool.pchunk ≥ 1` (there the C code would dereference a NULL `pool->free`);
a dummy reference is returned so the function stays total. -/
def BLI_mempool_alloc (pool : BLI_mempool) : BLI_mempool × Ref :=
  let pool := { pool with totused := pool.totused + 1 }
  let pool :=
    if pool.free = none then
      let cid := pool.nextId
      mempool_chunk_add { pool with nextId := cid + 1 } cid none
    else pool
  match pool.free with
  | none => (pool, (0, 0))
  | some retval =>
    let m := if pool.allow_iter then writeFreeword pool.mem retval USEDWORD else pool.mem
    ({ pool with mem := m, free := (m retval).next }, retval)

/-- The shrink path's re-threading loop in `BLI_mempool_free`
(`curnode->next = tmpaddr` only — it writes no freewords): identical to
`threadSlots` with the `ALLOW_ITER` writes disabled. -/
def rethreadFirst (cid : Nat) (pchunk : Nat) (m : Mem) : Mem :=
  threadSlots false cid (pchunk - 1) 0 pchunk m

/-- `BLI_mempool_free(pool, addr)`.  The debug-only chunk-membership scan
and double-free assert are checks without state effect and are not
modelled.  When the decremented `totused` reaches 0, all chunks but the
first are released and the first chunk's slots are re-threaded into a
fresh free list. -/
def BLI_mempool_free (pool : BLI_mempool) (addr : Ref) : BLI_mempool :=
  let m := if pool.allow_iter then writeFreeword pool.mem addr FREEWORD else pool.mem
  let m := writeNext m addr pool.free
  let pool := { pool with mem := m, free := some addr, totused := pool.totused - 1 }
  if pool.totused = 0 then
    match pool.chunks with
    | [] => pool
    | first :: _ =>
      let pool := { pool with chunks := [first] }
      let m := rethreadFirst first pool.pchunk pool.mem
      let m := writeNext m (first, pool.pchunk - 1) none
      { pool with free := some (first, 0), mem := m }
  else pool

/-- `BLI_mempool_count(pool)`. -/
def BLI_mempool_count (pool : BLI_mempool) : Int :=
  pool.totused

/-- `BLI_mempool_clear(pool)`: detach the first chunk, release every other
chunk, reset `totused` and `free`, and re-add the detached first chunk. -/
def BLI_mempool_clear (pool : BLI_mempool) : BLI_mempool :=
  match pool.chunks with
  | [] => pool
  | first :: _ =>
    let pool := { pool with chunks := [], totused := 0, free := none }
    mempool_chunk_add pool first none

/-- `BLI_mempool_iternew(pool, iter)`. -/
def BLI_mempool_iternew (pool : BLI_mempool) : BLI_mempool_iter :=
  { curchunk := pool.chunks, curindex := 0 }

/-- The do-while loop of `BLI_mempool_iterstep`, fuel-bounded.  One
iteration reads the slot at the cursor, advances the cursor (wrapping to
the next chunk at `pchunk`), and repeats while the slot's `freeword` is
`FREEWORD`.  `fuel = curchunk.length * pchunk + 1` always suffices for
cursors with `curindex < pchunk`. -/
def iterLoop (pool : BLI_mempool) : BLI_mempool_iter → Nat → Option Ref × BLI_mempool_iter
  | it, 0 => (none, it)
  | it, fuel + 1 =>
    match it.curchunk with
    | [] => (none, it)
    | cid :: rest =>
      let ret : Ref := (cid, it.curindex)
      let it :=
        if it.curindex + 1 ≥ pool.pchunk then
          { curchunk := rest, curindex := 0 }
        else
          { curchunk := cid :: rest, curindex := it.curindex + 1 }
      if (pool.mem ret).freeword = FREEWORD then iterLoop pool it fuel
      else (some ret, it)

/-- `BLI_mempool_iterstep(iter)`: next live element, or `none` when
exhausted (also immediately when `totused == 0`). -/
def BLI_mempool_iterstep (pool : BLI_mempool) (it : BLI_mempool_iter) :
    Option Ref × BLI_mempool_iter :=
  if pool.totused = 0 then (none, it)
  else iterLoop pool it (it.curchunk.length * pool.pchunk + 1)

/-- Repeatedly call `BLI_mempool_iterstep` (at most `n` times), collecting
the yielded references until the iterator signals exhaustion. -/
def iterDrain (pool : BLI_mempool) : BLI_mempool_iter → Nat → List Ref
  | _, 0 => []
  | it, n + 1 =>
    match BLI_mempool_iterstep pool it with
    | (none, _) => []
    | (some r, it') => r :: iterDrain pool it' n

/-- Everything a fresh iterator yields: `BLI_mempool_iternew` followed by
`BLI_mempool_iterstep` until exhaustion (the drain bound
`chunks.length * pchunk + 1` exceeds the number of slots, hence of yields). -/
def iterAll (pool : BLI_mempool) : List Ref :=
  iterDrain pool (BLI_mempool_iternew pool) (pool.chunks.length * pool.pchunk + 1)

/-- The loop of `BLI_mempool_findelem`:
`for (elem = iterstep; index-- != 0; elem = iterstep)` — one initial step,
then `n` further steps; returns the last yielded value. -/
def findLoop (pool : BLI_mempool) (it : BLI_mempool_iter) : Nat → Option Ref
  | 0 => (BLI_mempool_iterstep pool it).1
  | n + 1 => findLoop pool (BLI_mempool_iterstep pool it).2 n

/-- `BLI_mempool_findelem(pool, index)`.  The C function only reads the
pool (the iterator is caller-local state), so it is a pure function of the
pool here. -/
def BLI_mempool_findelem (pool : BLI_mempool) (index : Int) : Option Ref :=
  if 0 ≤ index ∧ index < pool.totused then
    findLoop pool (BLI_mempool_iternew pool) index.toNat
  else none

/-- The slots of one chunk, in slot order. -/
def chunkSlots (cid : Nat) (pchunk : Nat) : List Ref :=
  (List.range pchunk).map (fun j => (cid, j))

/-- All slots of a chunk list, in chunk order then slot order —
the order a mempool iterator scans them in. -/
def allSlots (chunks : List Nat) (pchunk : Nat) : List Ref :=
  chunks.flatMap (fun cid => chunkSlots cid pchunk)

/-- `isChainSeg m o l t`: starting from pointer `o`, following `next`
fields in `m` visits exactly the references in `l` and ends at pointer `t`. -/
def isChainSeg (m : Mem) : Option Ref → List Ref → Option Ref → Prop
  | o, [], t => o = t
  | o, r :: rs, t => o = some r ∧ isChainSeg m (m r).next rs t

/-- `isChain m o l`: the NULL-terminated chain from `o` is exactly `l`.
This is the free list the C code sees from `pool->free`. -/
def isChain (m : Mem) (o : Option Ref) (l : List Ref) : Prop :=
  isChainSeg m o l none

/-! ## Basic lemmas about slot-memory writes -/

theorem writeNext_self (m : Mem) (r : Ref) (v : Option Ref) :
    writeNext m r v r = { m r with next := v } := by
  simp [writeNext]

theorem writeNext_ne (m : Mem) (r x : Ref) (v : Option Ref) (h : x ≠ r) :
    writeNext m r v x = m x := by
  simp [writeNext, h]

theorem writeNext_freeword (m : Mem) (r x : Ref) (v : Option Ref) :
    (writeNext m r v x).freeword = (m x).freeword := by
  by_cases h : x = r <;> simp [writeNext, h]

theorem writeFreeword_self (m : Mem) (r : Ref) (v : Int) :
    writeFreeword m r v r = { m r with freeword := v } := by
  simp [writeFreeword]

theorem writeFreeword_ne (m : Mem) (r x : Ref) (v : Int) (h : x ≠ r) :
    writeFreeword m r v x = m x := by
  simp [writeFreeword, h]

theorem writeFreeword_next (m : Mem) (r x : Ref) (v : Int) :
    (writeFreeword m r v x).next = (m x).next := by
  by_cases h : x = r <;> simp [writeFreeword, h]

/-! ## Characterization of the chunk-threading loop -/

theorem ref_ne_of_snd_ne {cid i j : Nat} (h : i ≠ j) : ((cid, i) : Ref) ≠ (cid, j) :=
  fun he => h (congrArg Prod.snd he)

theorem threadSlots_ne_chunk (a : Bool) (cid pl : Nat) :
    ∀ (f j : Nat) (m : Mem) (x : Ref), x.1 ≠ cid →
      threadSlots a cid pl j f m x = m x := by
  intro f
  induction f with
  | zero => intro j m x _; rfl
  | succ f ih =>
    intro j m x hx
    have hx1 : x ≠ (cid, j) := by intro h; exact hx (by rw [h])
    have hx2 : x ≠ (cid, j + 1) := by intro h; exact hx (by rw [h])
    simp only [threadSlots]
    rw [ih _ _ _ hx]
    cases a with
    | false => simp [writeNext_ne _ _ _ _ hx1]
    | true =>
      by_cases hj : j ≠ pl <;>
        simp [hj, writeFreeword_ne _ _ _ _ hx1, writeFreeword_ne _ _ _ _ hx2,
          writeNext_ne _ _ _ _ hx1]

theorem threadSlots_lt (a : Bool) (cid pl : Nat) :
    ∀ (f j : Nat) (m : Mem) (i : Nat), i < j →
      threadSlots a cid pl j f m (cid, i) = m (cid, i) := by
  intro f
  induction f with
  | zero => intro j m i _; rfl
  | succ f ih =>
    intro j m i hi
    have hx1 : ((cid, i) : Ref) ≠ (cid, j) := ref_ne_of_snd_ne (by omega)
    have hx2 : ((cid, i) : Ref) ≠ (cid, j + 1) := ref_ne_of_snd_ne (by omega)
    simp only [threadSlots]
    rw [ih _ _ _ (Nat.lt_succ_of_lt hi)]
    cases a with
    | false => simp [writeNext_ne _ _ _ _ hx1]
    | true =>
      by_cases hj : j ≠ pl <;>
        simp [hj, writeFreeword_ne _ _ _ _ hx1, writeFreeword_ne _ _ _ _ hx2,
          writeNext_ne _ _ _ _ hx1]

theorem threadSlots_gt (a : Bool) (cid pl : Nat) :
    ∀ (f j : Nat) (m : Mem) (i : Nat), j + f = pl + 1 → pl < i →
      threadSlots a cid pl j f m (cid, i) = m (cid, i) := by
  intro f
  induction f with
  | zero => intro j m i _ _; rfl
  | succ f ih =>
    intro j m i hjf hi
    have hx1 : ((cid, i) : Ref) ≠ (cid, j) := ref_ne_of_snd_ne (by omega)
    simp only [threadSlots]
    rw [ih _ _ _ (by omega) hi]
    cases a with
    | false => simp [writeNext_ne _ _ _ _ hx1]
    | true =>
      by_cases hj : j ≠ pl
      · -- j < pl here, so (cid, j + 1) cannot alias (cid, i) either
        have hx2 : ((cid, i) : Ref) ≠ (cid, j + 1) := ref_ne_of_snd_ne (by omega)
        simp [hj, writeFreeword_ne _ _ _ _ hx1, writeFreeword_ne _ _ _ _ hx2,
          writeNext_ne _ _ _ _ hx1]
      · -- j = pl: the out-of-range freeword write is guarded off
        simp [hj, writeFreeword_ne _ _ _ _ hx1, writeNext_ne _ _ _ _ hx1]

theorem threadSlots_next (a : Bool) (cid pl : Nat) :
    ∀ (f j : Nat) (m : Mem) (i : Nat), j + f = pl + 1 → j ≤ i → i ≤ pl →
      (threadSlots a cid pl j f m (cid, i)).next = some (cid, i + 1) := by
  intro f
  induction f with
  | zero => intro j m i hjf hji hip; omega
  | succ f ih =>
    intro j m i hjf hji hip
    simp only [threadSlots]
    rcases Nat.eq_or_lt_of_le hji with rfl | hlt
    · rw [threadSlots_lt a cid pl f (j + 1) _ j (Nat.lt_succ_self j)]
      cases a with
      | false => simp [writeNext_self]
      | true =>
        by_cases hj : j ≠ pl <;> simp [hj, writeFreeword_next, writeNext_self]
    · exact ih (j + 1) _ i (by omega) hlt hip

theorem threadSlots_freeword (cid pl : Nat) :
    ∀ (f j : Nat) (m : Mem) (i : Nat), j + f = pl + 1 → j ≤ i → i ≤ pl →
      (threadSlots true cid pl j f m (cid, i)).freeword = FREEWORD := by
  intro f
  induction f with
  | zero => intro j m i hjf hji hip; omega
  | succ f ih =>
    intro j m i hjf hji hip
    simp only [threadSlots]
    rcases Nat.eq_or_lt_of_le hji with rfl | hlt
    · rw [threadSlots_lt true cid pl f (j + 1) _ j (Nat.lt_succ_self j)]
      by_cases hj : j ≠ pl <;> simp [hj, writeFreeword_self]
    · exact ih (j + 1) _ i (by omega) hlt hip

theorem threadSlots_false_freeword (cid pl : Nat) :
    ∀ (f j : Nat) (m : Mem) (x : Ref),
      (threadSlots false cid pl j f m x).freeword = (m x).freeword := by
  intro f
  induction f with
  | zero => intro j m x; rfl
  | succ f ih =>
    intro j m x
    simp only [threadSlots]
    rw [ih]
    simp [writeNext_freeword]

/-! ## Characterization of `mempool_chunk_add` -/

theorem chunk_add_chunks (pool : BLI_mempool) (cid : Nat) (lt : Option Ref) :
    (mempool_chunk_add pool cid lt).chunks = pool.chunks ++ [cid] := by
  cases lt <;> by_cases h : pool.free = none <;> simp [mempool_chunk_add, h]

theorem chunk_add_free (pool : BLI_mempool) (cid : Nat) (lt : Option Ref) :
    (mempool_chunk_add pool cid lt).free =
      if pool.free = none then some (cid, 0) else pool.free := by
  cases lt <;> by_cases h : pool.free = none <;> simp [mempool_chunk_add, h]

theorem chunk_add_totused (pool : BLI_mempool) (cid : Nat) (lt : Option Ref) :
    (mempool_chunk_add pool cid lt).totused = pool.totused := by
  cases lt <;> by_cases h : pool.free = none <;> simp [mempool_chunk_add, h]

theorem chunk_add_pchunk (pool : BLI_mempool) (cid : Nat) (lt : Option Ref) :
    (mempool_chunk_add pool cid lt).pchunk = pool.pchunk := by
  cases lt <;> by_cases h : pool.free = none <;> simp [mempool_chunk_add, h]

theorem chunk_add_allow_iter (pool : BLI_mempool) (cid : Nat) (lt : Option Ref) :
    (mempool_chunk_add pool cid lt).allow_iter = pool.allow_iter := by
  cases lt <;> by_cases h : pool.free = none <;> simp [mempool_chunk_add, h]

theorem chunk_add_nextId (pool : BLI_mempool) (cid : Nat) (lt : Option Ref) :
    (mempool_chunk_add pool cid lt).nextId = pool.nextId := by
  cases lt <;> by_cases h : pool.free = none <;> simp [mempool_chunk_add, h]

theorem chunk_add_esize (pool : BLI_mempool) (cid : Nat) (lt : Option Ref) :
    (mempool_chunk_add pool cid lt).esize = pool.esize := by
  cases lt <;> by_cases h : pool.free = none <;> simp [mempool_chunk_add, h]

theorem chunk_add_csize (pool : BLI_mempool) (cid : Nat) (lt : Option Ref) :
    (mempool_chunk_add pool cid lt).csize = pool.csize := by
  cases lt <;> by_cases h : pool.free = none <;> simp [mempool_chunk_add, h]

theorem chunk_add_sysmalloc (pool : BLI_mempool) (cid : Nat) (lt : Option Ref) :
    (mempool_chunk_add pool cid lt).sysmalloc = pool.sysmalloc := by
  cases lt <;> by_cases h : pool.free = none <;> simp [mempool_chunk_add, h]

/-- Memory outside chunk `cid` (and, when a `lasttail` is passed, outside
that slot) is untouched by `mempool_chunk_add`. -/
theorem chunk_add_mem_other (pool : BLI_mempool) (cid : Nat) (lt : Option Ref)
    (x : Ref) (hx : x.1 ≠ cid) (hlt : ∀ l, lt = some l → x ≠ l) :
    (mempool_chunk_add pool cid lt).mem x = pool.mem x := by
  have hx0 : x ≠ (cid, 0) := by intro h; exact hx (by rw [h])
  have hxl : x ≠ (cid, pool.pchunk - 1) := by intro h; exact hx (by rw [h])
  cases lt with
  | none =>
    by_cases h : pool.free = none <;> by_cases ha : pool.allow_iter <;>
      simp [mempool_chunk_add, h, ha, hx, hx0, hxl,
        writeNext_ne, writeFreeword_ne, threadSlots_ne_chunk]
  | some l =>
    have hxls : x ≠ l := hlt l rfl
    by_cases h : pool.free = none <;> by_cases ha : pool.allow_iter <;>
      simp [mempool_chunk_add, h, ha, hx, hx0, hxl, hxls,
        writeNext_ne, writeFreeword_ne, threadSlots_ne_chunk]

/-- After `mempool_chunk_add`, the `next` fields of the added chunk's
slots thread them in slot order and terminate at the last slot
(the `lasttail`, when given, lies in a previously added chunk). -/
theorem chunk_add_mem_next (pool : BLI_mempool) (cid : Nat) (lt : Option Ref)
    (hp : 1 ≤ pool.pchunk) (hlt : ∀ l, lt = some l → l.1 ≠ cid)
    (i : Nat) (hi : i < pool.pchunk) :
    ((mempool_chunk_add pool cid lt).mem (cid, i)).next =
      if i + 1 < pool.pchunk then some (cid, i + 1) else none := by
  have hfrom : ∀ (a : Bool) (m : Mem),
      ((writeNext (threadSlots a cid (pool.pchunk - 1) 0 pool.pchunk m)
          (cid, pool.pchunk - 1) none) (cid, i)).next =
        if i + 1 < pool.pchunk then some (cid, i + 1) else none := by
    intro a m
    by_cases hil : i = pool.pchunk - 1
    · subst hil
      rw [writeNext_self]
      have hnotlt : ¬ (pool.pchunk - 1 + 1 < pool.pchunk) := by omega
      simp [hnotlt]
    · have hne : ((cid, i) : Ref) ≠ (cid, pool.pchunk - 1) := ref_ne_of_snd_ne hil
      have hlt2 : i + 1 < pool.pchunk := by omega
      rw [writeNext_ne _ _ _ _ hne,
        threadSlots_next a cid (pool.pchunk - 1) pool.pchunk 0 m i
          (by omega) (by omega) (by omega)]
      simp [hlt2]
  cases lt with
  | none =>
    by_cases h : pool.free = none <;>
      simp only [mempool_chunk_add, h, if_true, if_false, ite_true, ite_false] <;>
      exact hfrom _ _
  | some l =>
    have hll : l.1 ≠ cid := hlt l rfl
    have hne1 : ((cid, i) : Ref) ≠ l := by intro h; exact hll (by rw [← h])
    have push : ∀ (a : Bool) (m' : Mem),
        ((if a then writeFreeword m' l FREEWORD else m') (cid, i)).next =
          (m' (cid, i)).next := by
      intro a m'; cases a <;> simp [writeFreeword_next]
    by_cases h : pool.free = none <;>
      simp only [mempool_chunk_add, h, if_true, if_false, ite_true, ite_false] <;>
      rw [push, writeNext_ne _ _ _ _ hne1] <;>
      exact hfrom _ _

/-- After `mempool_chunk_add` with `ALLOW_ITER`, every slot of the added
chunk is tagged `FREEWORD`. -/
theorem chunk_add_mem_freeword (pool : BLI_mempool) (cid : Nat) (lt : Option Ref)
    (hp : 1 ≤ pool.pchunk) (ha : pool.allow_iter = true)
    (hlt : ∀ l, lt = some l → l.1 ≠ cid)
    (i : Nat) (hi : i < pool.pchunk) :
    ((mempool_chunk_add pool cid lt).mem (cid, i)).freeword = FREEWORD := by
  have hfrom : ∀ (m : Mem),
      ((writeNext (threadSlots true cid (pool.pchunk - 1) 0 pool.pchunk m)
          (cid, pool.pchunk - 1) none) (cid, i)).freeword = FREEWORD := by
    intro m
    rw [writeNext_freeword,
      threadSlots_freeword cid (pool.pchunk - 1) pool.pchunk 0 m i
        (by omega) (by omega) (by omega)]
  cases lt with
  | none =>
    by_cases h : pool.free = none <;>
      simp only [mempool_chunk_add, h, ha, if_true, if_false, ite_true, ite_false] <;>
      exact hfrom _
  | some l =>
    have hll : l.1 ≠ cid := hlt l rfl
    have hne1 : ((cid, i) : Ref) ≠ l := by intro h; exact hll (by rw [← h])
    by_cases h : pool.free = none <;>
      simp only [mempool_chunk_add, h, ha, if_true, if_false, ite_true, ite_false] <;>
      rw [writeFreeword_ne _ _ _ _ hne1, writeNext_freeword] <;>
      exact hfrom _

/-- After `mempool_chunk_add` with a `lasttail` in an older chunk, the
lasttail's `next` now points at the added chunk's first slot. -/
theorem chunk_add_mem_lasttail_next (pool : BLI_mempool) (cid : Nat) (l : Ref)
    (_hll : l.1 ≠ cid) :
    ((mempool_chunk_add pool cid (some l)).mem l).next = some (cid, 0) := by
  have step : ∀ (a : Bool) (m : Mem),
      ((if a then writeFreeword (writeNext m l (some (cid, 0))) l FREEWORD
        else writeNext m l (some (cid, 0))) l).next = some (cid, 0) := by
    intro a m
    cases a <;> simp [writeFreeword_next, writeNext_self]
  by_cases h : pool.free = none <;>
    simp only [mempool_chunk_add, h, if_true, if_false, ite_true, ite_false] <;>
    exact step _ _

/-- After `mempool_chunk_add` with `ALLOW_ITER` and a `lasttail` in an
older chunk, the lasttail's tag is (re)written to `FREEWORD`. -/
theorem chunk_add_mem_lasttail_freeword (pool : BLI_mempool) (cid : Nat) (l : Ref)
    (ha : pool.allow_iter = true) (_hll : l.1 ≠ cid) :
    ((mempool_chunk_add pool cid (some l)).mem l).freeword = FREEWORD := by
  by_cases h : pool.free = none <;>
    simp only [mempool_chunk_add, h, ha, if_true, if_false, ite_true, ite_false] <;>
    rw [writeFreeword_self]

/-! ## Chain segments -/

theorem isChainSeg_nil (m : Mem) (o t : Option Ref) :
    isChainSeg m o [] t ↔ o = t := Iff.rfl

theorem isChainSeg_cons (m : Mem) (o t : Option Ref) (r : Ref) (l : List Ref) :
    isChainSeg m o (r :: l) t ↔ o = some r ∧ isChainSeg m (m r).next l t := Iff.rfl

/-- A chain segment only reads the `next` fields of its own elements, so it
is stable under memory changes that keep those fields. -/
theorem isChainSeg_ext (m m' : Mem) :
    ∀ (l : List Ref) (o t : Option Ref),
      (∀ r ∈ l, (m' r).next = (m r).next) →
      isChainSeg m o l t → isChainSeg m' o l t := by
  intro l
  induction l with
  | nil => intro o t _ h; exact h
  | cons r rs ih =>
    intro o t hnext h
    obtain ⟨ho, hrest⟩ := h
    refine ⟨ho, ?_⟩
    rw [hnext r (List.mem_cons_self r rs)]
    exact ih _ _ (fun x hx => hnext x (List.mem_cons_of_mem r hx)) hrest

theorem isChainSeg_append (m : Mem) :
    ∀ (l₁ l₂ : List Ref) (o t u : Option Ref),
      isChainSeg m o l₁ t → isChainSeg m t l₂ u → isChainSeg m o (l₁ ++ l₂) u := by
  intro l₁
  induction l₁ with
  | nil => intro l₂ o t u h₁ h₂; rw [h₁]; exact h₂
  | cons r rs ih =>
    intro l₂ o t u h₁ h₂
    obtain ⟨ho, hrest⟩ := h₁
    exact ⟨ho, ih _ _ _ _ hrest h₂⟩

/-- A chain can be followed deterministically, so two chains from the same
head coincide. -/
theorem isChain_unique (m : Mem) :
    ∀ (l₁ l₂ : List Ref) (o : Option Ref),
      isChain m o l₁ → isChain m o l₂ → l₁ = l₂ := by
  intro l₁
  induction l₁ with
  | nil =>
    intro l₂ o h₁ h₂
    cases l₂ with
    | nil => rfl
    | cons s ss =>
      obtain ⟨ho, _⟩ := h₂
      have h₁' : o = none := h₁
      rw [h₁'] at ho
      exact absurd ho (by simp)
  | cons r rs ih =>
    intro l₂ o h₁ h₂
    obtain ⟨ho, hrest₁⟩ := h₁
    cases l₂ with
    | nil =>
      have h₂' : o = none := h₂
      rw [h₂'] at ho
      exact absurd ho (by simp)
    | cons s ss =>
      obtain ⟨hs, hrest₂⟩ := h₂
      rw [ho] at hs
      obtain rfl : r = s := by injection hs
      rw [ih ss _ hrest₁ hrest₂]

/-- The slots of a chunk whose `next` fields thread in slot order form a
chain segment from the first slot, ending at the last slot's `next`. -/
theorem isChainSeg_chunkSlots (m : Mem) (cid p : Nat) (hp : 1 ≤ p)
    (hnext : ∀ i, i < p →
      (m (cid, i)).next = if i + 1 < p then some (cid, i + 1) else none) :
    isChainSeg m (some (cid, 0)) (chunkSlots cid p) none := by
  have main : ∀ (k i : Nat), 1 ≤ k → i + k = p →
      isChainSeg m (some (cid, i)) ((List.range' i k).map (fun t => ((cid, t) : Ref))) none := by
    intro k
    induction k with
    | zero => intro i h1 _; omega
    | succ k ih =>
      intro i _ hik
      rw [List.range'_succ, List.map_cons, isChainSeg_cons]
      refine ⟨rfl, ?_⟩
      by_cases hk : k = 0
      · subst hk
        have : ¬ (i + 1 < p) := by omega
        rw [hnext i (by omega), if_neg this]
        simp [isChainSeg_nil]
      · have hlt : i + 1 < p := by omega
        rw [hnext i (by omega), if_pos hlt]
        exact ih (i + 1) (by omega) (by omega)
  have h0 := main p 0 hp (by omega)
  rw [chunkSlots, List.range_eq_range']
  exact h0

/-! ## Slot enumeration lemmas -/

theorem mem_chunkSlots (cid p : Nat) (r : Ref) :
    r ∈ chunkSlots cid p ↔ r.1 = cid ∧ r.2 < p := by
  cases r with
  | mk a b =>
    simp only [chunkSlots, List.mem_map, List.mem_range]
    constructor
    · rintro ⟨j, hj, he⟩
      obtain ⟨rfl, rfl⟩ : cid = a ∧ j = b := by
        constructor <;> [exact congrArg Prod.fst he; exact congrArg Prod.snd he]
      exact ⟨rfl, hj⟩
    · rintro ⟨rfl, hb⟩
      exact ⟨b, hb, rfl⟩

theorem chunkSlots_nodup (cid p : Nat) : (chunkSlots cid p).Nodup := by
  refine List.Nodup.map ?_ (List.nodup_range p)
  intro a b h
  exact congrArg Prod.snd h

theorem chunkSlots_length (cid p : Nat) : (chunkSlots cid p).length = p := by
  simp [chunkSlots]

theorem allSlots_nil (p : Nat) : allSlots [] p = [] := rfl

theorem allSlots_append (c₁ c₂ : List Nat) (p : Nat) :
    allSlots (c₁ ++ c₂) p = allSlots c₁ p ++ allSlots c₂ p := by
  simp [allSlots]

theorem allSlots_cons (c : Nat) (cs : List Nat) (p : Nat) :
    allSlots (c :: cs) p = chunkSlots c p ++ allSlots cs p := by
  simp [allSlots]

theorem allSlots_single (c p : Nat) : allSlots [c] p = chunkSlots c p := by
  simp [allSlots]

theorem mem_allSlots (chunks : List Nat) (p : Nat) (r : Ref) :
    r ∈ allSlots chunks p ↔ r.1 ∈ chunks ∧ r.2 < p := by
  simp only [allSlots, List.mem_flatMap]
  constructor
  · rintro ⟨c, hc, hr⟩
    obtain ⟨h1, h2⟩ := (mem_chunkSlots c p r).1 hr
    exact ⟨h1 ▸ hc, h2⟩
  · rintro ⟨h1, h2⟩
    exact ⟨r.1, h1, (mem_chunkSlots r.1 p r).2 ⟨rfl, h2⟩⟩

theorem allSlots_nodup (chunks : List Nat) (p : Nat) (h : chunks.Nodup) :
    (allSlots chunks p).Nodup := by
  rw [allSlots, List.nodup_flatMap]
  refine ⟨fun c _ => chunkSlots_nodup c p, ?_⟩
  refine h.imp ?_
  intro a b hab
  rw [Function.onFun, List.disjoint_left]
  intro r hra hrb
  obtain ⟨h1, _⟩ := (mem_chunkSlots a p r).1 hra
  obtain ⟨h2, _⟩ := (mem_chunkSlots b p r).1 hrb
  exact hab (h1 ▸ h2 ▸ rfl)

theorem allSlots_length (chunks : List Nat) (p : Nat) :
    (allSlots chunks p).length = chunks.length * p := by
  induction chunks with
  | nil => simp [allSlots]
  | cons c cs ih =>
    rw [allSlots_cons, List.length_append, chunkSlots_length, ih,
      List.length_cons]
    ring

/-- Splitting a chain segment at its final element. -/
theorem isChainSeg_split_last (m : Mem) :
    ∀ (xs : List Ref) (x : Ref) (o t : Option Ref),
      isChainSeg m o (xs ++ [x]) t →
      isChainSeg m o xs (some x) ∧ (m x).next = t := by
  intro xs
  induction xs with
  | nil =>
    intro x o t h
    obtain ⟨ho, hrest⟩ := h
    exact ⟨ho, hrest⟩
  | cons y ys ih =>
    intro x o t h
    obtain ⟨ho, hrest⟩ := h
    obtain ⟨h1, h2⟩ := ih x _ _ hrest
    exact ⟨⟨ho, h1⟩, h2⟩

/-! ## Pool invariants -/

/-- `r` denotes a slot of some chunk currently owned by the pool. -/
def validSlot (pool : BLI_mempool) (r : Ref) : Prop :=
  r.1 ∈ pool.chunks ∧ r.2 < pool.pchunk

/-- Structural well-formedness of the pool: at least one element per chunk,
at least one chunk, chunk ids distinct and below the fresh-id counter. -/
structure PoolInv (pool : BLI_mempool) : Prop where
  pchunk_pos : 1 ≤ pool.pchunk
  chunks_ne : pool.chunks ≠ []
  chunks_nodup : pool.chunks.Nodup
  chunks_lt : ∀ c ∈ pool.chunks, c < pool.nextId

/-- The free-list invariant, with `fl` the (unique) chain reachable from
`pool->free`: the chain visits distinct valid slots; `totused` counts the
remaining (live) slots; with `ALLOW_ITER`, free slots are tagged `FREEWORD`
and live slots carry the in-use tag. -/
structure FreeInv (pool : BLI_mempool) (fl : List Ref) : Prop where
  chain : isChain pool.mem pool.free fl
  nodup : fl.Nodup
  valid : ∀ r ∈ fl, validSlot pool r
  count : pool.totused =
    ((pool.chunks.length * pool.pchunk : Nat) : Int) - (fl.length : Int)
  tag_free : pool.allow_iter = true → ∀ r ∈ fl, (pool.mem r).freeword = FREEWORD
  tag_live : pool.allow_iter = true → ∀ r : Ref, validSlot pool r → r ∉ fl →
    (pool.mem r).freeword = USEDWORD

/-- The full reachable-state invariant. -/
def MempoolInv (pool : BLI_mempool) : Prop :=
  PoolInv pool ∧ ∃ fl, FreeInv pool fl

/-- The threaded slots of a freshly added chunk form a chain segment from
the chunk's first slot to NULL (holds whatever `lasttail` outside the
chunk and whatever the previous free-list head). -/
theorem chunk_add_chainSeg (pool : BLI_mempool) (cid : Nat) (lt : Option Ref)
    (hp : 1 ≤ pool.pchunk) (hlt : ∀ l, lt = some l → l.1 ≠ cid) :
    isChainSeg (mempool_chunk_add pool cid lt).mem (some (cid, 0))
      (chunkSlots cid pool.pchunk) none := by
  apply isChainSeg_chunkSlots _ _ _ hp
  intro i hi
  exact chunk_add_mem_next pool cid lt hp hlt i hi

theorem chunkSlots_eq_append (cid p : Nat) (hp : 1 ≤ p) :
    chunkSlots cid p = chunkSlots cid (p - 1) ++ [(cid, p - 1)] := by
  conv_lhs => rw [show p = (p - 1) + 1 by omega]
  rw [chunkSlots, List.range_succ, List.map_append]
  rfl

/-- Invariant of `BLI_mempool_create`'s chunk loop after at least one
iteration: `l` is the `lasttail` (the last added chunk's last slot); the
slots allocated so far, in chunk then slot order, are `front ++ [l]`, and
they form the free chain from `pool->free` terminated at `l`. -/
structure CreateLoopInv (pool : BLI_mempool) (l : Ref) : Prop where
  pchunk_pos : 1 ≤ pool.pchunk
  chunks_ne : pool.chunks ≠ []
  chunks_nodup : pool.chunks.Nodup
  chunks_lt : ∀ c ∈ pool.chunks, c < pool.nextId
  totused0 : pool.totused = 0
  l_chunk : l.1 ∈ pool.chunks
  seg : ∃ front, allSlots pool.chunks pool.pchunk = front ++ [l] ∧
    isChainSeg pool.mem pool.free front (some l) ∧ (pool.mem l).next = none
  tags : pool.allow_iter = true → ∀ r : Ref, r.1 ∈ pool.chunks →
    r.2 < pool.pchunk → (pool.mem r).freeword = FREEWORD

theorem createLoopInv_first (pool : BLI_mempool)
    (hp : 1 ≤ pool.pchunk) (hchunks : pool.chunks = []) (hfree : pool.free = none)
    (htot : pool.totused = 0) :
    CreateLoopInv
      (mempool_chunk_add { pool with nextId := pool.nextId + 1 } pool.nextId none)
      (pool.nextId, pool.pchunk - 1) := by
  set cid := pool.nextId with hcid
  set P₁ : BLI_mempool := { pool with nextId := pool.nextId + 1 } with hP₁
  set P := mempool_chunk_add P₁ cid none with hP
  have hPp : P.pchunk = pool.pchunk := chunk_add_pchunk _ _ _
  have hPc : P.chunks = [cid] := by
    rw [hP, chunk_add_chunks]
    simp [hP₁, hchunks]
  have hPf : P.free = some (cid, 0) := by
    rw [hP, chunk_add_free]
    simp [hP₁, hfree]
  have hfull : isChainSeg P.mem (some (cid, 0)) (chunkSlots cid pool.pchunk) none :=
    chunk_add_chainSeg P₁ cid none hp (by intro l h; cases h)
  have hsplit := isChainSeg_split_last P.mem (chunkSlots cid (pool.pchunk - 1))
    (cid, pool.pchunk - 1) (some (cid, 0)) none
    (by rw [← chunkSlots_eq_append cid pool.pchunk hp]; exact hfull)
  refine ⟨?_, ?_, ?_, ?_, ?_, ?_, ?_, ?_⟩
  · rw [hPp]; exact hp
  · rw [hPc]; simp
  · rw [hPc]; simp
  · intro c hc
    rw [hPc] at hc
    rw [hP, chunk_add_nextId]
    have hn : P₁.nextId = pool.nextId + 1 := rfl
    rw [hn]
    simp only [List.mem_singleton] at hc
    omega
  · rw [hP, chunk_add_totused]; exact htot
  · rw [hPc]; simp
  · refine ⟨chunkSlots cid (pool.pchunk - 1), ?_, ?_, ?_⟩
    · rw [hPc, hPp, allSlots_single, chunkSlots_eq_append cid pool.pchunk hp]
    · rw [hPf]; exact hsplit.1
    · exact hsplit.2
  · intro ha r hr1 hr2
    rw [hPc] at hr1
    simp at hr1
    rw [hPp] at hr2
    have : r = ((cid, r.2) : Ref) := by
      rw [← hr1]
    rw [this]
    exact chunk_add_mem_freeword P₁ cid none hp (by rw [← chunk_add_allow_iter P₁ cid none]; exact ha)
      (by intro l h; cases h) r.2 hr2

theorem createLoopInv_step (pool : BLI_mempool) (l : Ref) (h : CreateLoopInv pool l) :
    CreateLoopInv
      (mempool_chunk_add { pool with nextId := pool.nextId + 1 } pool.nextId (some l))
      (pool.nextId, pool.pchunk - 1) := by
  obtain ⟨front, hfe, hseg, hlnext⟩ := h.seg
  set cid := pool.nextId with hcid
  set P₁ : BLI_mempool := { pool with nextId := pool.nextId + 1 } with hP₁
  set P := mempool_chunk_add P₁ cid (some l) with hP
  have hlcid : l.1 ≠ cid := by
    have := h.chunks_lt l.1 h.l_chunk
    omega
  have hfresh : cid ∉ pool.chunks := by
    intro hc
    have := h.chunks_lt cid hc
    omega
  have hfree_ne : pool.free ≠ none := by
    cases front with
    | nil =>
      have : pool.free = some l := hseg
      simp [this]
    | cons y ys =>
      have : pool.free = some y := hseg.1
      simp [this]
  have hPp : P.pchunk = pool.pchunk := chunk_add_pchunk _ _ _
  have hPc : P.chunks = pool.chunks ++ [cid] := chunk_add_chunks _ _ _
  have hPf : P.free = pool.free := by
    rw [hP, chunk_add_free]
    have : P₁.free = pool.free := rfl
    rw [this, if_neg hfree_ne]
  have hPa : P.allow_iter = pool.allow_iter := chunk_add_allow_iter _ _ _
  have hslots_nd : (allSlots pool.chunks pool.pchunk).Nodup :=
    allSlots_nodup _ _ h.chunks_nodup
  have hlnotfront : l ∉ front := by
    rw [hfe] at hslots_nd
    have := List.Nodup.not_mem (List.nodup_middle.mp (by simpa using hslots_nd))
    intro hmem
    exact this (by simp [hmem])
  -- the new chunk's slots form a chain, split at the last slot
  have hfull : isChainSeg P.mem (some (cid, 0)) (chunkSlots cid pool.pchunk) none := by
    have := chunk_add_chainSeg P₁ cid (some l) h.pchunk_pos
      (by intro l' h'; injection h' with h''; rw [← h'']; exact hlcid)
    simpa using this
  have hsplit := isChainSeg_split_last P.mem (chunkSlots cid (pool.pchunk - 1))
    (cid, pool.pchunk - 1) (some (cid, 0)) none
    (by rw [← chunkSlots_eq_append cid pool.pchunk h.pchunk_pos]; exact hfull)
  -- memory of old non-lasttail slots is untouched
  have hother : ∀ r ∈ front, P.mem r = pool.mem r := by
    intro r hr
    have hrall : r ∈ allSlots pool.chunks pool.pchunk := by
      rw [hfe]; exact List.mem_append_left _ hr
    have hr1 : r.1 ∈ pool.chunks := ((mem_allSlots _ _ _).1 hrall).1
    have hr1cid : r.1 ≠ cid := by intro hh; exact hfresh (hh ▸ hr1)
    have hrl : r ≠ l := by intro hh; exact hlnotfront (hh ▸ hr)
    exact chunk_add_mem_other P₁ cid (some l) r hr1cid
      (by intro l' h'; injection h' with h''; rw [← h'']; exact hrl)
  refine ⟨?_, ?_, ?_, ?_, ?_, ?_, ?_, ?_⟩
  · rw [hPp]; exact h.pchunk_pos
  · rw [hPc]; simp
  · rw [hPc]
    rw [List.nodup_append]
    exact ⟨h.chunks_nodup, List.nodup_singleton cid,
      by intro c hc hc'; simp at hc'; exact hfresh (hc' ▸ hc)⟩
  · intro c hc
    rw [hPc] at hc
    rw [hP, chunk_add_nextId]
    have hn : P₁.nextId = pool.nextId + 1 := rfl
    rw [hn]
    rcases List.mem_append.1 hc with hc | hc
    · have := h.chunks_lt c hc
      omega
    · simp at hc
      omega
  · rw [hP, chunk_add_totused]
    exact h.totused0
  · rw [hPc]; simp
  · refine ⟨front ++ [l] ++ chunkSlots cid (pool.pchunk - 1), ?_, ?_, ?_⟩
    · rw [hPc, hPp, allSlots_append, hfe, allSlots_single,
        chunkSlots_eq_append cid pool.pchunk h.pchunk_pos]
      simp [List.append_assoc]
    · rw [hPf]
      refine isChainSeg_append P.mem (front ++ [l]) (chunkSlots cid (pool.pchunk - 1))
        pool.free (some (cid, 0)) (some (cid, pool.pchunk - 1)) ?_ hsplit.1
      refine isChainSeg_append P.mem front [l] pool.free (some l) (some (cid, 0)) ?_ ?_
      · exact isChainSeg_ext pool.mem P.mem front pool.free (some l)
          (fun r hr => by rw [hother r hr]) hseg
      · refine ⟨rfl, ?_⟩
        rw [chunk_add_mem_lasttail_next P₁ cid l hlcid]
        rfl
    · exact hsplit.2
  · intro ha r hr1 hr2
    rw [hPa] at ha
    rw [hPc] at hr1
    rw [hPp] at hr2
    rcases List.mem_append.1 hr1 with hr1 | hr1
    · by_cases hrl : r = l
      · rw [hrl]
        exact chunk_add_mem_lasttail_freeword P₁ cid l ha hlcid
      · have hr1cid : r.1 ≠ cid := by
          intro hh
          exact hfresh (hh ▸ hr1)
        rw [chunk_add_mem_other P₁ cid (some l) r hr1cid
          (by intro l' h'; injection h' with h''; rw [← h'']; exact hrl)]
        exact h.tags ha r hr1 hr2
    · simp at hr1
      have : r = ((cid, r.2) : Ref) := by rw [← hr1]
      rw [this]
      exact chunk_add_mem_freeword P₁ cid (some l) h.pchunk_pos ha
        (by intro l' h'; injection h' with h''; rw [← h'']; exact hlcid) r.2 hr2

theorem createChunks_loop :
    ∀ (n : Nat) (pool : BLI_mempool) (l : Ref), CreateLoopInv pool l →
      ∃ l', CreateLoopInv (createChunks pool (some l) n) l' := by
  intro n
  induction n with
  | zero => intro pool l h; exact ⟨l, h⟩
  | succ n ih =>
    intro pool l h
    have hstep := createLoopInv_step pool l h
    simp only [createChunks]
    rw [chunk_add_pchunk]
    exact ih _ _ hstep

theorem createLoopInv_final (pool : BLI_mempool) (l : Ref) (h : CreateLoopInv pool l)
    : PoolInv pool ∧ FreeInv pool (allSlots pool.chunks pool.pchunk) := by
  obtain ⟨front, hfe, hseg, hlnext⟩ := h.seg
  constructor
  · exact ⟨h.pchunk_pos, h.chunks_ne, h.chunks_nodup, h.chunks_lt⟩
  · refine ⟨?_, ?_, ?_, ?_, ?_, ?_⟩
    · rw [hfe]
      exact isChainSeg_append pool.mem front [l] pool.free (some l) none hseg ⟨rfl, hlnext⟩
    · exact allSlots_nodup _ _ h.chunks_nodup
    · intro r hr
      exact (mem_allSlots _ _ _).1 hr
    · rw [allSlots_length, h.totused0]
      simp
    · intro ha r hr
      obtain ⟨h1, h2⟩ := (mem_allSlots _ _ _).1 hr
      exact h.tags ha r h1 h2
    · intro ha r hv hnot
      exact absurd ((mem_allSlots _ _ _).2 ⟨hv.1, hv.2⟩) hnot

/-- Field/shape lemmas for `createChunks`. -/
theorem createChunks_chunks_length :
    ∀ (n : Nat) (pool : BLI_mempool) (lt : Option Ref),
      (createChunks pool lt n).chunks.length = pool.chunks.length + n := by
  intro n
  induction n with
  | zero => intro pool lt; rfl
  | succ n ih =>
    intro pool lt
    simp only [createChunks]
    rw [ih, chunk_add_chunks]
    simp
    omega

theorem createChunks_pchunk :
    ∀ (n : Nat) (pool : BLI_mempool) (lt : Option Ref),
      (createChunks pool lt n).pchunk = pool.pchunk := by
  intro n
  induction n with
  | zero => intro pool lt; rfl
  | succ n ih => intro pool lt; simp only [createChunks]; rw [ih, chunk_add_pchunk]

theorem createChunks_allow_iter :
    ∀ (n : Nat) (pool : BLI_mempool) (lt : Option Ref),
      (createChunks pool lt n).allow_iter = pool.allow_iter := by
  intro n
  induction n with
  | zero => intro pool lt; rfl
  | succ n ih => intro pool lt; simp only [createChunks]; rw [ih, chunk_add_allow_iter]

theorem createChunks_totused :
    ∀ (n : Nat) (pool : BLI_mempool) (lt : Option Ref),
      (createChunks pool lt n).totused = pool.totused := by
  intro n
  induction n with
  | zero => intro pool lt; rfl
  | succ n ih => intro pool lt; simp only [createChunks]; rw [ih, chunk_add_totused]

/-- The number of chunks `BLI_mempool_create` allocates is exactly
`totelem / pchunk + 1` (C integer division). -/
theorem create_chunks_length (esize : Int) (totelem pchunk : Nat)
    (allow_iter sysmalloc : Bool) (m0 : Mem) :
    (BLI_mempool_create esize totelem pchunk allow_iter sysmalloc m0).chunks.length =
      totelem / pchunk + 1 := by
  simp only [BLI_mempool_create]
  rw [if_neg (Nat.succ_ne_zero (totelem / pchunk))]
  rw [createChunks_chunks_length]
  simp

/-- `BLI_mempool_create` establishes the pool and free-list invariants,
with the free list being exactly all slots in chunk/slot order. -/
theorem create_spec (esize : Int) (totelem pchunk : Nat)
    (allow_iter sysmalloc : Bool) (m0 : Mem) (hp : 1 ≤ pchunk) :
    PoolInv (BLI_mempool_create esize totelem pchunk allow_iter sysmalloc m0) ∧
      FreeInv (BLI_mempool_create esize totelem pchunk allow_iter sysmalloc m0)
        (allSlots (BLI_mempool_create esize totelem pchunk allow_iter sysmalloc m0).chunks
          (BLI_mempool_create esize totelem pchunk allow_iter sysmalloc m0).pchunk) := by
  simp only [BLI_mempool_create]
  rw [if_neg (Nat.succ_ne_zero (totelem / pchunk))]
  simp only [createChunks]
  rw [chunk_add_pchunk]
  have hfirst := createLoopInv_first
    { chunks := []
      esize := if allow_iter then
          max (if esize < MEMPOOL_ELEM_SIZE_MIN then MEMPOOL_ELEM_SIZE_MIN else esize)
            sizeof_BLI_freenode
        else (if esize < MEMPOOL_ELEM_SIZE_MIN then MEMPOOL_ELEM_SIZE_MIN else esize)
      csize := (if esize < MEMPOOL_ELEM_SIZE_MIN then MEMPOOL_ELEM_SIZE_MIN else esize) *
        (pchunk : Int)
      pchunk := pchunk
      allow_iter := allow_iter
      sysmalloc := sysmalloc
      free := none
      totused := 0
      mem := m0
      nextId := 0 } hp rfl rfl rfl
  obtain ⟨l', hl'⟩ := createChunks_loop (totelem / pchunk) _ _ hfirst
  exact createLoopInv_final _ _ hl'

/-! ## Characterization of `BLI_mempool_alloc` -/

/-- `BLI_mempool_alloc` when the free list is non-empty: bump `totused`,
tag the head slot in-use (under `ALLOW_ITER`), pop the head. -/
theorem alloc_some (pool : BLI_mempool) (r : Ref) (h : pool.free = some r) :
    BLI_mempool_alloc pool =
      ({ pool with
          totused := pool.totused + 1,
          mem := if pool.allow_iter then writeFreeword pool.mem r USEDWORD else pool.mem,
          free := (pool.mem r).next }, r) := by
  by_cases hai : pool.allow_iter <;>
    simp [BLI_mempool_alloc, h, hai, writeFreeword_next]

/-- `BLI_mempool_alloc` when the free list is empty: bump `totused`, add
one fresh chunk, then pop that chunk's first slot. -/
theorem alloc_none_eq (pool : BLI_mempool) (h : pool.free = none) :
    BLI_mempool_alloc pool =
      ({ mempool_chunk_add
            { pool with totused := pool.totused + 1, nextId := pool.nextId + 1 }
            pool.nextId none with
          mem := if pool.allow_iter then
              writeFreeword
                (mempool_chunk_add
                  { pool with totused := pool.totused + 1, nextId := pool.nextId + 1 }
                  pool.nextId none).mem (pool.nextId, 0) USEDWORD
            else
              (mempool_chunk_add
                { pool with totused := pool.totused + 1, nextId := pool.nextId + 1 }
                pool.nextId none).mem,
          free := ((if pool.allow_iter then
              writeFreeword
                (mempool_chunk_add
                  { pool with totused := pool.totused + 1, nextId := pool.nextId + 1 }
                  pool.nextId none).mem (pool.nextId, 0) USEDWORD
            else
              (mempool_chunk_add
                { pool with totused := pool.totused + 1, nextId := pool.nextId + 1 }
                pool.nextId none).mem) (pool.nextId, 0)).next },
        (pool.nextId, 0)) := by
  simp only [BLI_mempool_alloc, h, reduceIte]
  split
  next heq =>
    rw [chunk_add_free] at heq
    simp at heq
  next retval heq =>
    rw [chunk_add_free] at heq
    simp at heq
    obtain rfl : retval = (pool.nextId, 0) := heq.symm
    simp [chunk_add_allow_iter]

theorem isChain_none_eq_nil (m : Mem) (fl : List Ref) (h : isChain m none fl) :
    fl = [] := by
  cases fl with
  | nil => rfl
  | cons r rs => exact absurd h.1 (by simp)

theorem isChain_some_cons (m : Mem) (r : Ref) (fl : List Ref)
    (h : isChain m (some r) fl) :
    ∃ rest, fl = r :: rest ∧ isChain m ((m r).next) rest := by
  cases fl with
  | nil =>
    have h' : (some r : Option Ref) = none := h
    cases h'
  | cons s rs =>
    obtain ⟨hs, hrest⟩ := h
    obtain rfl : r = s := by injection hs
    exact ⟨rs, rfl, hrest⟩

theorem chunkSlots_head_tail (cid p : Nat) (hp : 1 ≤ p) :
    chunkSlots cid p =
      (cid, 0) :: (List.range' 1 (p - 1)).map (fun j => ((cid, j) : Ref)) := by
  conv_lhs => rw [show p = (p - 1) + 1 by omega]
  rw [chunkSlots, List.range_eq_range', List.range'_succ, List.map_cons]

/-- Allocation from a non-empty free list preserves the invariants, the
free chain losing its head. -/
theorem alloc_preserves_some (pool : BLI_mempool) (r : Ref) (fl : List Ref)
    (hP : PoolInv pool) (hF : FreeInv pool fl) (h : pool.free = some r) :
    PoolInv (BLI_mempool_alloc pool).1 ∧
      FreeInv (BLI_mempool_alloc pool).1 fl.tail := by
  have hchain := hF.chain
  rw [h] at hchain
  obtain ⟨rest, rfl, htail⟩ := isChain_some_cons pool.mem r fl hchain
  have hrrest : r ∉ rest := (List.nodup_cons.mp hF.nodup).1
  rw [alloc_some pool r h]
  have hnexteq : ∀ x : Ref,
      ((if pool.allow_iter then writeFreeword pool.mem r USEDWORD else pool.mem) x).next =
        (pool.mem x).next := by
    intro x
    by_cases hai : pool.allow_iter <;> simp [hai, writeFreeword_next]
  constructor
  · exact ⟨hP.pchunk_pos, hP.chunks_ne, hP.chunks_nodup, hP.chunks_lt⟩
  · refine ⟨?_, ?_, ?_, ?_, ?_, ?_⟩
    · show isChainSeg _ (pool.mem r).next rest none
      exact isChainSeg_ext pool.mem _ rest _ none (fun x _ => hnexteq x) htail
    · exact (List.nodup_cons.mp hF.nodup).2
    · intro x hx
      exact hF.valid x (List.mem_cons_of_mem r hx)
    · have hc := hF.count
      simp only [List.length_cons] at hc
      show pool.totused + 1 =
        ((pool.chunks.length * pool.pchunk : Nat) : Int) - (rest.length : Int)
      push_cast at hc ⊢
      omega
    · intro ha x hx
      have hxr : x ≠ r := fun he => hrrest (he ▸ hx)
      show ((if pool.allow_iter then writeFreeword pool.mem r USEDWORD else pool.mem) x).freeword
        = FREEWORD
      rw [ha, if_pos rfl, writeFreeword_ne _ _ _ _ hxr]
      exact hF.tag_free ha x (List.mem_cons_of_mem r hx)
    · intro ha x hv hnx
      show ((if pool.allow_iter then writeFreeword pool.mem r USEDWORD else pool.mem) x).freeword
        = USEDWORD
      rw [ha, if_pos rfl]
      by_cases hxr : x = r
      · rw [hxr, writeFreeword_self]
      · rw [writeFreeword_ne _ _ _ _ hxr]
        exact hF.tag_live ha x hv (by
          intro hmem
          rcases List.mem_cons.mp hmem with hmem | hmem
          · exact hxr hmem
          · exact hnx hmem)

/-- Allocation from an empty free list preserves the invariants: one fresh
chunk is threaded in and its first slot handed out, so the new free chain
is the rest of that chunk's slots. -/
theorem alloc_preserves_none (pool : BLI_mempool) (fl : List Ref)
    (hP : PoolInv pool) (hF : FreeInv pool fl) (h : pool.free = none) :
    PoolInv (BLI_mempool_alloc pool).1 ∧
      FreeInv (BLI_mempool_alloc pool).1
        ((List.range' 1 (pool.pchunk - 1)).map (fun j => ((pool.nextId, j) : Ref))) := by
  have hp : 1 ≤ pool.pchunk := hP.pchunk_pos
  have hfl : fl = [] := isChain_none_eq_nil pool.mem fl (by rw [← h]; exact hF.chain)
  subst hfl
  have hcount : pool.totused = ((pool.chunks.length * pool.pchunk : Nat) : Int) := by
    have hc := hF.count
    simpa using hc
  have hfresh : pool.nextId ∉ pool.chunks := by
    intro hc
    have := hP.chunks_lt _ hc
    omega
  rw [alloc_none_eq pool h]
  set nid := pool.nextId with hnid
  set inner : BLI_mempool :=
    { pool with totused := pool.totused + 1, nextId := pool.nextId + 1 } with hinner
  set G := mempool_chunk_add inner nid none with hG
  set M : Mem := if pool.allow_iter then writeFreeword G.mem (nid, 0) USEDWORD else G.mem
    with hM
  set fl' := (List.range' 1 (pool.pchunk - 1)).map (fun j => ((nid, j) : Ref)) with hfl'
  have hip : inner.pchunk = pool.pchunk := rfl
  have hia : inner.allow_iter = pool.allow_iter := rfl
  have him : inner.mem = pool.mem := rfl
  have hit : inner.totused = pool.totused + 1 := rfl
  have hin : inner.nextId = nid + 1 := rfl
  have hic : inner.chunks = pool.chunks := rfl
  have hGc : G.chunks = pool.chunks ++ [nid] := by
    rw [hG, chunk_add_chunks, hic]
  have hGp : G.pchunk = pool.pchunk := by rw [hG, chunk_add_pchunk, hip]
  have hGa : G.allow_iter = pool.allow_iter := by rw [hG, chunk_add_allow_iter, hia]
  have hGt : G.totused = pool.totused + 1 := by rw [hG, chunk_add_totused, hit]
  have hGn : G.nextId = nid + 1 := by rw [hG, chunk_add_nextId, hin]
  have hMnext : ∀ x : Ref, (M x).next = (G.mem x).next := by
    intro x
    by_cases hai : pool.allow_iter <;> simp [hM, hai, writeFreeword_next]
  have hGother : ∀ x : Ref, x.1 ≠ nid → G.mem x = pool.mem x := by
    intro x hx
    rw [hG, chunk_add_mem_other inner nid none x hx (by intro l hl; cases hl), him]
  have hGnext : ∀ i, i < pool.pchunk → (G.mem (nid, i)).next =
      if i + 1 < pool.pchunk then some (nid, i + 1) else none := by
    intro i hi
    rw [hG, chunk_add_mem_next inner nid none (by rw [hip]; exact hp)
      (by intro l hl; cases hl) i (by rw [hip]; exact hi), hip]
  have hGfw : pool.allow_iter = true → ∀ i, i < pool.pchunk →
      (G.mem (nid, i)).freeword = FREEWORD := by
    intro ha i hi
    rw [hG, chunk_add_mem_freeword inner nid none (by rw [hip]; exact hp)
      (by rw [hia]; exact ha) (by intro l hl; cases hl) i (by rw [hip]; exact hi)]
  have hseg : isChainSeg G.mem (some (nid, 0)) ((nid, 0) :: fl') none := by
    have hfull := chunk_add_chainSeg inner nid none (by rw [hip]; exact hp)
      (by intro l hl; cases hl)
    rw [hip, chunkSlots_head_tail nid pool.pchunk hp] at hfull
    rw [← hG] at hfull
    exact hfull
  have hseg' : isChainSeg G.mem ((G.mem (nid, 0)).next) fl' none := hseg.2
  constructor
  · refine ⟨?_, ?_, ?_, ?_⟩
    · show 1 ≤ G.pchunk
      rw [hGp]; exact hp
    · show G.chunks ≠ []
      rw [hGc]; simp
    · show G.chunks.Nodup
      rw [hGc, List.nodup_append]
      exact ⟨hP.chunks_nodup, List.nodup_singleton nid,
        by intro c hc hc'; simp at hc'; exact hfresh (hc' ▸ hc)⟩
    · intro c hc
      show c < G.nextId
      rw [hGn]
      rw [show ({ G with mem := M, free := (M (nid, 0)).next } : BLI_mempool).chunks
        = G.chunks from rfl, hGc] at hc
      rcases List.mem_append.1 hc with hc | hc
      · have := hP.chunks_lt c hc
        omega
      · simp at hc
        omega
  · refine ⟨?_, ?_, ?_, ?_, ?_, ?_⟩
    · show isChainSeg M ((M (nid, 0)).next) fl' none
      rw [hMnext (nid, 0)]
      exact isChainSeg_ext G.mem M fl' _ none (fun x _ => hMnext x) hseg'
    · exact List.Nodup.map (fun a b hab => congrArg Prod.snd hab)
        (List.nodup_range' 1 (pool.pchunk - 1))
    · intro x hx
      rw [hfl'] at hx
      obtain ⟨j, hj, rfl⟩ := List.mem_map.1 hx
      rw [List.mem_range'_1] at hj
      constructor
      · show nid ∈ G.chunks
        rw [hGc]; simp
      · show j < G.pchunk
        rw [hGp]; omega
    · show G.totused =
        ((G.chunks.length * G.pchunk : Nat) : Int) - (fl'.length : Int)
      rw [hGt, hGc, hGp, hfl', List.length_map, List.length_range',
        List.length_append]
      have hmul : (pool.chunks.length + 1) * pool.pchunk =
          pool.chunks.length * pool.pchunk + pool.pchunk := by ring
      simp only [List.length_singleton, hmul]
      push_cast
      omega
    · intro ha x hx
      rw [hfl'] at hx
      obtain ⟨j, hj, rfl⟩ := List.mem_map.1 hx
      rw [List.mem_range'_1] at hj
      have hne0 : ((nid, j) : Ref) ≠ (nid, 0) := ref_ne_of_snd_ne (by omega)
      show (M (nid, j)).freeword = FREEWORD
      have ha' : pool.allow_iter = true := by
        rw [show ({ G with mem := M, free := (M (nid, 0)).next } :
          BLI_mempool).allow_iter = G.allow_iter from rfl, hGa] at ha
        exact ha
      rw [hM, ha', if_pos rfl, writeFreeword_ne _ _ _ _ hne0]
      exact hGfw ha' j (by omega)
    · intro ha x hv hnx
      have ha' : pool.allow_iter = true := by
        rw [show ({ G with mem := M, free := (M (nid, 0)).next } :
          BLI_mempool).allow_iter = G.allow_iter from rfl, hGa] at ha
        exact ha
      obtain ⟨hx1, hx2⟩ := hv
      rw [show ({ G with mem := M, free := (M (nid, 0)).next } : BLI_mempool).chunks
        = G.chunks from rfl, hGc] at hx1
      rw [show ({ G with mem := M, free := (M (nid, 0)).next } : BLI_mempool).pchunk
        = G.pchunk from rfl, hGp] at hx2
      show (M x).freeword = USEDWORD
      rcases List.mem_append.1 hx1 with hx1 | hx1
      · have hxnid : x.1 ≠ nid := by
          have := hP.chunks_lt x.1 hx1
          omega
        have hne0 : x ≠ (nid, 0) := by
          intro he
          exact hxnid (by rw [he])
        rw [hM, ha', if_pos rfl, writeFreeword_ne _ _ _ _ hne0, hGother x hxnid]
        exact hF.tag_live ha' x ⟨hx1, hx2⟩ (by simp)
      · simp at hx1
        have hxe : x = ((nid, x.2) : Ref) := by rw [← hx1]
        by_cases hx20 : x.2 = 0
        · rw [hxe, hx20, hM, ha', if_pos rfl, writeFreeword_self]
        · exfalso
          apply hnx
          rw [hfl', hxe]
          exact List.mem_map.2 ⟨x.2, List.mem_range'_1.2 ⟨by omega, by omega⟩, rfl⟩

/-! ## Characterization of `BLI_mempool_free` -/

/-- `BLI_mempool_free` when the decremented count is non-zero: tag the
slot free (under `ALLOW_ITER`), push it on the free-list head, decrement. -/
theorem free_eq_no_shrink (pool : BLI_mempool) (addr : Ref)
    (h : ¬ (pool.totused - 1 = 0)) :
    BLI_mempool_free pool addr =
      { pool with
        mem := writeNext
          (if pool.allow_iter then writeFreeword pool.mem addr FREEWORD else pool.mem)
          addr pool.free,
        free := some addr,
        totused := pool.totused - 1 } := by
  simp [BLI_mempool_free, h]

/-- `BLI_mempool_free` when the decremented count reaches zero: push the
slot, then release every chunk but the first and re-thread the first
chunk's slots into a fresh free list (writing no freewords). -/
theorem free_eq_shrink (pool : BLI_mempool) (addr : Ref) (first : Nat)
    (rest : List Nat) (hc : pool.chunks = first :: rest)
    (h : pool.totused - 1 = 0) :
    BLI_mempool_free pool addr =
      { pool with
        chunks := [first],
        mem := writeNext
          (rethreadFirst first pool.pchunk
            (writeNext
              (if pool.allow_iter then writeFreeword pool.mem addr FREEWORD else pool.mem)
              addr pool.free))
          (first, pool.pchunk - 1) none,
        free := some (first, 0),
        totused := pool.totused - 1 } := by
  simp [BLI_mempool_free, h, hc]

/-- The terminal `next` values of a threaded chunk (threading loop followed
by the terminating NULL write). -/
theorem thread_term_next (a : Bool) (cid p : Nat) (hp : 1 ≤ p) (m : Mem)
    (i : Nat) (hi : i < p) :
    ((writeNext (threadSlots a cid (p - 1) 0 p m) (cid, p - 1) none) (cid, i)).next =
      if i + 1 < p then some (cid, i + 1) else none := by
  by_cases hil : i = p - 1
  · subst hil
    rw [writeNext_self]
    have hnotlt : ¬ (p - 1 + 1 < p) := by omega
    simp [hnotlt]
  · have hne : ((cid, i) : Ref) ≠ (cid, p - 1) := ref_ne_of_snd_ne hil
    have hlt2 : i + 1 < p := by omega
    rw [writeNext_ne _ _ _ _ hne,
      threadSlots_next a cid (p - 1) p 0 m i (by omega) (by omega) (by omega)]
    simp [hlt2]

/-- The shrink path's re-threading produces the first chunk's slots as one
chain. -/
theorem rethread_chain (cid p : Nat) (hp : 1 ≤ p) (m : Mem) :
    isChainSeg (writeNext (rethreadFirst cid p m) (cid, p - 1) none)
      (some (cid, 0)) (chunkSlots cid p) none := by
  apply isChainSeg_chunkSlots _ _ _ hp
  intro i hi
  exact thread_term_next false cid p hp m i hi

/-- The shrink path's re-threading writes no freewords. -/
theorem rethread_freeword (cid p : Nat) (m : Mem) (x : Ref) :
    ((writeNext (rethreadFirst cid p m) (cid, p - 1) none) x).freeword =
      (m x).freeword := by
  rw [writeNext_freeword, rethreadFirst, threadSlots_false_freeword]

/-- Freeing a live slot without reaching count zero preserves the
invariants; the slot becomes the new free-list head. -/
theorem free_preserves_no_shrink (pool : BLI_mempool) (r : Ref) (fl : List Ref)
    (hP : PoolInv pool) (hF : FreeInv pool fl)
    (hv : validSlot pool r) (hnf : r ∉ fl)
    (h : ¬ (pool.totused - 1 = 0)) :
    PoolInv (BLI_mempool_free pool r) ∧ FreeInv (BLI_mempool_free pool r) (r :: fl) := by
  rw [free_eq_no_shrink pool r h]
  set m₁ : Mem := if pool.allow_iter then writeFreeword pool.mem r FREEWORD else pool.mem
    with hm₁
  have hm₁next : ∀ x : Ref, (m₁ x).next = (pool.mem x).next := by
    intro x
    by_cases hai : pool.allow_iter <;> simp [hm₁, hai, writeFreeword_next]
  have hother : ∀ x : Ref, x ≠ r →
      (writeNext m₁ r pool.free) x = m₁ x := fun x hx => writeNext_ne _ _ _ _ hx
  have hfw_other : ∀ x : Ref, x ≠ r →
      ((writeNext m₁ r pool.free) x).freeword = (pool.mem x).freeword := by
    intro x hx
    rw [hother x hx]
    by_cases hai : pool.allow_iter <;> simp [hm₁, hai, writeFreeword_ne _ _ _ _ hx]
  constructor
  · exact ⟨hP.pchunk_pos, hP.chunks_ne, hP.chunks_nodup, hP.chunks_lt⟩
  · refine ⟨?_, ?_, ?_, ?_, ?_, ?_⟩
    · refine ⟨rfl, ?_⟩
      show isChainSeg (writeNext m₁ r pool.free) ((writeNext m₁ r pool.free r).next) fl none
      rw [writeNext_self]
      show isChainSeg (writeNext m₁ r pool.free) pool.free fl none
      exact isChainSeg_ext pool.mem _ fl pool.free none
        (fun x hx => by
          rw [hother x (fun he => hnf (he ▸ hx))]
          exact hm₁next x)
        hF.chain
    · exact List.nodup_cons.2 ⟨hnf, hF.nodup⟩
    · intro x hx
      rcases List.mem_cons.1 hx with rfl | hx
      · exact hv
      · exact hF.valid x hx
    · have hc := hF.count
      show pool.totused - 1 =
        ((pool.chunks.length * pool.pchunk : Nat) : Int) - ((r :: fl).length : Int)
      simp only [List.length_cons]
      push_cast at hc ⊢
      omega
    · intro ha x hx
      rcases List.mem_cons.1 hx with rfl | hx
      · show ((writeNext m₁ x pool.free) x).freeword = FREEWORD
        rw [writeNext_freeword, hm₁, ha, if_pos rfl, writeFreeword_self]
      · have hxr : x ≠ r := fun he => hnf (he ▸ hx)
        show ((writeNext m₁ r pool.free) x).freeword = FREEWORD
        rw [hfw_other x hxr]
        exact hF.tag_free ha x hx
    · intro ha x hxv hnx
      have hxr : x ≠ r := fun he => hnx (he ▸ List.mem_cons_self r fl)
      show ((writeNext m₁ r pool.free) x).freeword = USEDWORD
      rw [hfw_other x hxr]
      exact hF.tag_live ha x hxv (fun hmem => hnx (List.mem_cons_of_mem r hmem))

/-- Freeing the last live slot triggers the shrink: afterwards the pool
owns exactly its old first chunk, whose slots form the whole free list.
The invariants are preserved. -/
theorem free_preserves_shrink (pool : BLI_mempool) (r : Ref) (fl : List Ref)
    (hP : PoolInv pool) (hF : FreeInv pool fl)
    (hv : validSlot pool r) (hnf : r ∉ fl)
    (h : pool.totused - 1 = 0) :
    ∃ first rest, pool.chunks = first :: rest ∧
      PoolInv (BLI_mempool_free pool r) ∧
      FreeInv (BLI_mempool_free pool r) (chunkSlots first pool.pchunk) := by
  obtain ⟨first, rest, hc⟩ := List.exists_cons_of_ne_nil hP.chunks_ne
  refine ⟨first, rest, hc, ?_⟩
  have hp : 1 ≤ pool.pchunk := hP.pchunk_pos
  have hfirst : first ∈ pool.chunks := by rw [hc]; exact List.mem_cons_self _ _
  rw [free_eq_shrink pool r first rest hc h]
  set m₁ : Mem := if pool.allow_iter then writeFreeword pool.mem r FREEWORD else pool.mem
    with hm₁
  set m₂ : Mem := writeNext m₁ r pool.free with hm₂
  set M₂ : Mem := writeNext (rethreadFirst first pool.pchunk m₂)
    (first, pool.pchunk - 1) none with hM₂
  -- every valid slot is either `r` or on the old free list
  have hsub : (r :: fl) ⊆ allSlots pool.chunks pool.pchunk := by
    intro x hx
    rcases List.mem_cons.1 hx with rfl | hx
    · exact (mem_allSlots _ _ _).2 ⟨hv.1, hv.2⟩
    · have := hF.valid x hx
      exact (mem_allSlots _ _ _).2 ⟨this.1, this.2⟩
  have hnodup : (r :: fl).Nodup := List.nodup_cons.2 ⟨hnf, hF.nodup⟩
  have hlen : (allSlots pool.chunks pool.pchunk).length ≤ (r :: fl).length := by
    rw [allSlots_length, List.length_cons]
    have hcnt := hF.count
    push_cast at hcnt
    omega
  have hperm := (List.subperm_of_subset hnodup hsub).perm_of_length_le hlen
  have hcover : ∀ x : Ref, x.1 ∈ pool.chunks → x.2 < pool.pchunk →
      x = r ∨ x ∈ fl := by
    intro x h1 h2
    have hx : x ∈ allSlots pool.chunks pool.pchunk := (mem_allSlots _ _ _).2 ⟨h1, h2⟩
    have := hperm.symm.subset hx
    exact List.mem_cons.1 this
  -- freewords after the shrink writes
  have hfw : ∀ x : Ref, (M₂ x).freeword = (m₂ x).freeword := by
    intro x
    rw [hM₂, rethread_freeword]
  have hfw_r : pool.allow_iter = true → (m₂ r).freeword = FREEWORD := by
    intro ha
    rw [hm₂, writeNext_freeword, hm₁, ha, if_pos rfl, writeFreeword_self]
  have hfw_other : ∀ x : Ref, x ≠ r → (m₂ x).freeword = (pool.mem x).freeword := by
    intro x hx
    rw [hm₂, writeNext_freeword]
    by_cases hai : pool.allow_iter <;> simp [hm₁, hai, writeFreeword_ne _ _ _ _ hx]
  constructor
  · refine ⟨hP.pchunk_pos, by simp, List.nodup_singleton first, ?_⟩
    intro c hcm
    simp at hcm
    rw [hcm]
    exact hP.chunks_lt first hfirst
  · refine ⟨?_, ?_, ?_, ?_, ?_, ?_⟩
    · show isChainSeg M₂ (some (first, 0)) (chunkSlots first pool.pchunk) none
      rw [hM₂]
      exact rethread_chain first pool.pchunk hp m₂
    · exact chunkSlots_nodup first pool.pchunk
    · intro x hx
      obtain ⟨h1, h2⟩ := (mem_chunkSlots _ _ _).1 hx
      exact ⟨by simp [h1], h2⟩
    · show pool.totused - 1 =
        (([first].length * pool.pchunk : Nat) : Int) -
          ((chunkSlots first pool.pchunk).length : Int)
      rw [chunkSlots_length, List.length_singleton, one_mul, h]
      simp
    · intro ha x hx
      obtain ⟨h1, h2⟩ := (mem_chunkSlots _ _ _).1 hx
      have hxc : x.1 ∈ pool.chunks := by rw [h1]; exact hfirst
      rcases hcover x hxc h2 with rfl | hmem
      · rw [hfw x, hfw_r ha]
      · have hxr : x ≠ r := fun he => hnf (he ▸ hmem)
        rw [hfw x, hfw_other x hxr]
        exact hF.tag_free ha x hmem
    · intro ha x hxv hnx
      exfalso
      apply hnx
      have h1 : x.1 ∈ ([first] : List Nat) := hxv.1
      simp at h1
      exact (mem_chunkSlots _ _ _).2 ⟨h1, hxv.2⟩

/-! ## Characterization of `BLI_mempool_clear` -/

theorem clear_eq (pool : BLI_mempool) (first : Nat) (rest : List Nat)
    (hc : pool.chunks = first :: rest) :
    BLI_mempool_clear pool =
      mempool_chunk_add
        { pool with chunks := [], totused := 0, free := none } first none := by
  simp [BLI_mempool_clear, hc]

/-- `BLI_mempool_clear` re-establishes the invariants with the retained
first chunk's slots as the whole free list. -/
theorem clear_preserves (pool : BLI_mempool) (hP : PoolInv pool) :
    ∃ first rest, pool.chunks = first :: rest ∧
      PoolInv (BLI_mempool_clear pool) ∧
      FreeInv (BLI_mempool_clear pool) (chunkSlots first pool.pchunk) := by
  obtain ⟨first, rest, hc⟩ := List.exists_cons_of_ne_nil hP.chunks_ne
  refine ⟨first, rest, hc, ?_⟩
  have hp : 1 ≤ pool.pchunk := hP.pchunk_pos
  have hfirst : first ∈ pool.chunks := by rw [hc]; exact List.mem_cons_self _ _
  rw [clear_eq pool first rest hc]
  set inner : BLI_mempool := { pool with chunks := [], totused := 0, free := none }
    with hinner
  set C := mempool_chunk_add inner first none with hC
  have hip : inner.pchunk = pool.pchunk := rfl
  have hia : inner.allow_iter = pool.allow_iter := rfl
  have hCc : C.chunks = [first] := by
    rw [hC, chunk_add_chunks]
    rfl
  have hCp : C.pchunk = pool.pchunk := by rw [hC, chunk_add_pchunk, hip]
  have hCa : C.allow_iter = pool.allow_iter := by rw [hC, chunk_add_allow_iter, hia]
  have hCt : C.totused = 0 := by rw [hC, chunk_add_totused]
  have hCn : C.nextId = pool.nextId := by rw [hC, chunk_add_nextId]
  have hCf : C.free = some (first, 0) := by
    rw [hC, chunk_add_free]
    rfl
  constructor
  · refine ⟨by rw [hCp]; exact hp, by rw [hCc]; simp,
      by rw [hCc]; exact List.nodup_singleton first, ?_⟩
    intro c hcm
    rw [hCc] at hcm
    simp at hcm
    rw [hCn, hcm]
    exact hP.chunks_lt first hfirst
  · refine ⟨?_, ?_, ?_, ?_, ?_, ?_⟩
    · rw [hCf]
      have := chunk_add_chainSeg inner first none (by rw [hip]; exact hp)
        (by intro l hl; cases hl)
      rw [hip] at this
      rw [hC]
      exact this
    · exact chunkSlots_nodup first pool.pchunk
    · intro x hx
      obtain ⟨h1, h2⟩ := (mem_chunkSlots _ _ _).1 hx
      exact ⟨by rw [hCc]; simp [h1], by rw [hCp]; exact h2⟩
    · rw [hCt, hCc, hCp, chunkSlots_length]
      simp
    · intro ha x hx
      obtain ⟨h1, h2⟩ := (mem_chunkSlots _ _ _).1 hx
      have hxe : x = ((first, x.2) : Ref) := by rw [← h1]
      rw [hxe]
      rw [hC]
      exact chunk_add_mem_freeword inner first none (by rw [hip]; exact hp)
        (by rw [hia, ← hCa]; exact ha) (by intro l hl; cases hl) x.2
        (by rw [hip, ← hCp]; exact h2)
    · intro ha x hxv hnx
      exfalso
      apply hnx
      have h1 : x.1 ∈ C.chunks := hxv.1
      rw [hCc] at h1
      simp at h1
      have h2 : x.2 < pool.pchunk := by rw [← hCp]; exact hxv.2
      exact (mem_chunkSlots _ _ _).2 ⟨h1, h2⟩

/-! ## Reachable states (pools created with `BLI_MEMPOOL_ALLOW_ITER`) -/

/-- Pool states reachable from `BLI_mempool_create` with the
`BLI_MEMPOOL_ALLOW_ITER` flag by `BLI_mempool_alloc`, `BLI_mempool_free`
of a live reference, and `BLI_mempool_clear`. -/
inductive Reachable : BLI_mempool → Prop
  | create (esize : Int) (totelem pchunk : Nat) (sysmalloc : Bool) (m0 : Mem)
      (hp : 1 ≤ pchunk) :
      Reachable (BLI_mempool_create esize totelem pchunk true sysmalloc m0)
  | alloc (pool : BLI_mempool) (h : Reachable pool) :
      Reachable (BLI_mempool_alloc pool).1
  | free (pool : BLI_mempool) (r : Ref) (h : Reachable pool)
      (hvalid : validSlot pool r) (hlive : ∀ fl, FreeInv pool fl → r ∉ fl) :
      Reachable (BLI_mempool_free pool r)
  | clear (pool : BLI_mempool) (h : Reachable pool) :
      Reachable (BLI_mempool_clear pool)

/-- Every reachable pool satisfies the invariants. -/
theorem reachable_inv (pool : BLI_mempool) (h : Reachable pool) :
    MempoolInv pool := by
  induction h with
  | create esize totelem pchunk sysmalloc m0 hp =>
    obtain ⟨h1, h2⟩ := create_spec esize totelem pchunk true sysmalloc m0 hp
    exact ⟨h1, _, h2⟩
  | alloc pool _ ih =>
    obtain ⟨hP, fl, hF⟩ := ih
    cases hfree : pool.free with
    | none =>
      obtain ⟨h1, h2⟩ := alloc_preserves_none pool fl hP hF hfree
      exact ⟨h1, _, h2⟩
    | some r =>
      obtain ⟨h1, h2⟩ := alloc_preserves_some pool r fl hP hF hfree
      exact ⟨h1, _, h2⟩
  | free pool r _ hvalid hlive ih =>
    obtain ⟨hP, fl, hF⟩ := ih
    by_cases h0 : pool.totused - 1 = 0
    · obtain ⟨first, rest, _, h1, h2⟩ :=
        free_preserves_shrink pool r fl hP hF hvalid (hlive fl hF) h0
      exact ⟨h1, _, h2⟩
    · obtain ⟨h1, h2⟩ :=
        free_preserves_no_shrink pool r fl hP hF hvalid (hlive fl hF) h0
      exact ⟨h1, _, h2⟩
  | clear pool _ ih =>
    obtain ⟨hP, _, _⟩ := ih
    obtain ⟨first, rest, _, h1, h2⟩ := clear_preserves pool hP
    exact ⟨h1, _, h2⟩

/-- `allow_iter` is preserved by every operation, so it holds in every
reachable state. -/
theorem reachable_allow_iter (pool : BLI_mempool) (h : Reachable pool) :
    pool.allow_iter = true := by
  induction h with
  | create esize totelem pchunk sysmalloc m0 hp =>
    simp only [BLI_mempool_create]
    rw [createChunks_allow_iter]
  | alloc pool _ ih =>
    cases hfree : pool.free with
    | none =>
      rw [alloc_none_eq pool hfree]
      show (mempool_chunk_add
          { pool with totused := pool.totused + 1, nextId := pool.nextId + 1 }
          pool.nextId none).allow_iter = true
      rw [chunk_add_allow_iter]
      exact ih
    | some r => rw [alloc_some pool r hfree]; exact ih
  | free pool r _ hvalid hlive ih =>
    by_cases h0 : pool.totused - 1 = 0
    · have hne : pool.chunks ≠ [] := by
        intro hnil
        exact absurd hvalid.1 (by rw [hnil]; simp)
      obtain ⟨first, rest, hc⟩ := List.exists_cons_of_ne_nil hne
      rw [free_eq_shrink pool r first rest hc h0]
      exact ih
    · rw [free_eq_no_shrink pool r h0]
      exact ih
  | clear pool _ ih =>
    cases hc : pool.chunks with
    | nil => simp only [BLI_mempool_clear, hc]; exact ih
    | cons first rest =>
      rw [clear_eq pool first rest hc, chunk_add_allow_iter]
      exact ih

/-! ## Iteration -/

/-- The test `BLI_mempool_iterstep`'s loop applies: a slot is yielded iff
its freeword differs from `FREEWORD`. -/
def liveTag (pool : BLI_mempool) (x : Ref) : Bool :=
  decide ((pool.mem x).freeword ≠ FREEWORD)

/-- The slots an iterator has not yet scanned, in scan order. -/
def iterRem (pool : BLI_mempool) (it : BLI_mempool_iter) : List Ref :=
  match it.curchunk with
  | [] => []
  | cid :: rest =>
    ((chunkSlots cid pool.pchunk).drop it.curindex) ++ allSlots rest pool.pchunk

/-- Iterator cursor well-formedness (as produced by `BLI_mempool_iternew`
and preserved by stepping). -/
def ItWF (pool : BLI_mempool) (it : BLI_mempool_iter) : Prop :=
  it.curchunk = [] ∨ it.curindex < pool.pchunk

theorem iterRem_zero (pool : BLI_mempool) (chunks : List Nat) :
    iterRem pool ⟨chunks, 0⟩ = allSlots chunks pool.pchunk := by
  cases chunks with
  | nil => rfl
  | cons c cs => simp [iterRem, allSlots_cons]

theorem iterRem_length_le (pool : BLI_mempool) (it : BLI_mempool_iter) :
    (iterRem pool it).length ≤ it.curchunk.length * pool.pchunk := by
  cases hc : it.curchunk with
  | nil => simp [iterRem, hc]
  | cons cid rest =>
    simp only [iterRem, hc, List.length_append, List.length_drop,
      chunkSlots_length, allSlots_length, List.length_cons]
    have hmul : (rest.length + 1) * pool.pchunk =
        rest.length * pool.pchunk + pool.pchunk := by ring
    omega

/-- One scan step: the head of the remaining slots is the slot under the
cursor, and advancing the cursor (with chunk wrap) drops it. -/
theorem iterRem_step (pool : BLI_mempool) (cid : Nat) (rest : List Nat)
    (idx : Nat) (hidx : idx < pool.pchunk) :
    iterRem pool ⟨cid :: rest, idx⟩ =
      ((cid, idx) : Ref) :: iterRem pool
        (if idx + 1 ≥ pool.pchunk then ⟨rest, 0⟩ else ⟨cid :: rest, idx + 1⟩) ∧
    ItWF pool (if idx + 1 ≥ pool.pchunk then ⟨rest, 0⟩ else ⟨cid :: rest, idx + 1⟩) := by
  have hlen : idx < (chunkSlots cid pool.pchunk).length := by
    rw [chunkSlots_length]; exact hidx
  have hdrop : (chunkSlots cid pool.pchunk).drop idx =
      ((cid, idx) : Ref) :: (chunkSlots cid pool.pchunk).drop (idx + 1) := by
    rw [List.drop_eq_getElem_cons hlen]
    simp [chunkSlots]
  by_cases hwrap : idx + 1 ≥ pool.pchunk
  · rw [if_pos hwrap]
    have hnil : (chunkSlots cid pool.pchunk).drop (idx + 1) = [] := by
      apply List.drop_eq_nil_of_le
      rw [chunkSlots_length]
      exact hwrap
    constructor
    · show ((chunkSlots cid pool.pchunk).drop idx) ++ allSlots rest pool.pchunk = _
      rw [hdrop, hnil, iterRem_zero]
      rfl
    · cases rest with
      | nil => exact Or.inl rfl
      | cons c cs => exact Or.inr (show 0 < pool.pchunk by omega)
  · rw [if_neg hwrap]
    constructor
    · show ((chunkSlots cid pool.pchunk).drop idx) ++ allSlots rest pool.pchunk = _
      rw [hdrop]
      rfl
    · exact Or.inr (show idx + 1 < pool.pchunk by omega)

/-- Full specification of `BLI_mempool_iterstep`'s scan loop, given enough
fuel: if every remaining slot is tagged free the loop reports exhaustion;
otherwise it yields the first remaining slot that is not tagged free, and
the new cursor's remaining slots are exactly those after it. -/
theorem iterLoop_spec (pool : BLI_mempool) :
    ∀ (fuel : Nat) (it : BLI_mempool_iter), ItWF pool it →
      (iterRem pool it).length < fuel →
      ((∀ x ∈ iterRem pool it, (pool.mem x).freeword = FREEWORD) →
        (iterLoop pool it fuel).1 = none ∧
        iterRem pool (iterLoop pool it fuel).2 = [] ∧
        ItWF pool (iterLoop pool it fuel).2) ∧
      (∀ (pre : List Ref) (r : Ref) (post : List Ref),
        iterRem pool it = pre ++ r :: post →
        (∀ x ∈ pre, (pool.mem x).freeword = FREEWORD) →
        (pool.mem r).freeword ≠ FREEWORD →
        (iterLoop pool it fuel).1 = some r ∧
        ItWF pool (iterLoop pool it fuel).2 ∧
        iterRem pool (iterLoop pool it fuel).2 = post) := by
  intro fuel
  induction fuel with
  | zero =>
    intro it hWF hlen
    omega
  | succ fuel ih =>
    intro it hWF hlen
    obtain ⟨cc, idx⟩ := it
    cases cc with
    | nil =>
      have hrem : iterRem pool ⟨[], idx⟩ = [] := rfl
      have hloop : iterLoop pool ⟨[], idx⟩ (fuel + 1) = (none, ⟨[], idx⟩) := by
        simp [iterLoop]
      constructor
      · intro _
        rw [hloop]
        exact ⟨rfl, rfl, Or.inl rfl⟩
      · intro pre r post he _ _
        rw [hrem] at he
        exact absurd he (by simp)
    | cons cid rest =>
      have hidx : idx < pool.pchunk := by
        rcases hWF with hWF | hWF
        · exact absurd hWF (by simp)
        · exact hWF
      obtain ⟨hrem, hWF'⟩ := iterRem_step pool cid rest idx hidx
      have hloop : iterLoop pool ⟨cid :: rest, idx⟩ (fuel + 1) =
          if (pool.mem (cid, idx)).freeword = FREEWORD then
            iterLoop pool
              (if idx + 1 ≥ pool.pchunk then ⟨rest, 0⟩ else ⟨cid :: rest, idx + 1⟩) fuel
          else (some (cid, idx),
            if idx + 1 ≥ pool.pchunk then ⟨rest, 0⟩ else ⟨cid :: rest, idx + 1⟩) := by
        simp only [iterLoop]
      by_cases htag : (pool.mem (cid, idx)).freeword = FREEWORD
      · rw [hloop, if_pos htag]
        have hlen' : (iterRem pool
            (if idx + 1 ≥ pool.pchunk then ⟨rest, 0⟩ else ⟨cid :: rest, idx + 1⟩)).length
            < fuel := by
          rw [hrem] at hlen
          simp only [List.length_cons] at hlen
          omega
        obtain ⟨part1, part2⟩ := ih _ hWF' hlen'
        constructor
        · intro hall
          apply part1
          intro x hx
          apply hall
          rw [hrem]
          exact List.mem_cons_of_mem _ hx
        · intro pre r post he hpre hr
          rw [hrem] at he
          cases pre with
          | nil =>
            simp at he
            exact absurd (he.1 ▸ htag) hr
          | cons q pre' =>
            simp at he
            obtain ⟨hq, he'⟩ := he
            exact part2 pre' r post he'
              (fun x hx => hpre x (List.mem_cons_of_mem q hx)) hr
      · rw [hloop, if_neg htag]
        constructor
        · intro hall
          exfalso
          apply htag
          apply hall
          rw [hrem]
          exact List.mem_cons_self _ _
        · intro pre r post he hpre hr
          cases pre with
          | nil =>
            rw [hrem] at he
            simp at he
            obtain ⟨h1, h2⟩ := he
            refine ⟨by rw [h1], hWF', ?_⟩
            show iterRem pool
              (if idx + 1 ≥ pool.pchunk then ⟨rest, 0⟩ else ⟨cid :: rest, idx + 1⟩) = post
            rw [← h2]
          | cons q pre' =>
            rw [hrem] at he
            simp at he
            obtain ⟨hq, _⟩ := he
            exfalso
            apply htag
            have hqt := hpre q (List.mem_cons_self q pre')
            rw [hq]
            exact hqt

theorem iterDrain_spec (pool : BLI_mempool) :
    ∀ (n : Nat) (it : BLI_mempool_iter), ItWF pool it →
      (iterRem pool it).length < n → pool.totused ≠ 0 →
      iterDrain pool it n = (iterRem pool it).filter (liveTag pool) := by
  intro n
  induction n with
  | zero => intro it _ hlen _; omega
  | succ n ih =>
    intro it hWF hlen htot
    have hfuel : (iterRem pool it).length < it.curchunk.length * pool.pchunk + 1 :=
      Nat.lt_succ_of_le (iterRem_length_le pool it)
    obtain ⟨part1, part2⟩ := iterLoop_spec pool _ it hWF hfuel
    have hstep : BLI_mempool_iterstep pool it =
        iterLoop pool it (it.curchunk.length * pool.pchunk + 1) := by
      rw [BLI_mempool_iterstep, if_neg htot]
    cases hfil : (iterRem pool it).filter (liveTag pool) with
    | nil =>
      have hall : ∀ x ∈ iterRem pool it, (pool.mem x).freeword = FREEWORD := by
        intro x hx
        have hfx := List.filter_eq_nil_iff.1 hfil x hx
        simp [liveTag] at hfx
        exact hfx
      obtain ⟨h1, _, _⟩ := part1 hall
      have hpair : BLI_mempool_iterstep pool it =
          (none, (iterLoop pool it (it.curchunk.length * pool.pchunk + 1)).2) := by
        rw [hstep]
        exact Prod.ext h1 rfl
      simp only [iterDrain, hpair]
    | cons r rs =>
      obtain ⟨pre, post, hsplit, hpre, hr, hpost⟩ := List.filter_eq_cons_iff.1 hfil
      have hpre' : ∀ x ∈ pre, (pool.mem x).freeword = FREEWORD := by
        intro x hx
        have hfx := hpre x hx
        simp [liveTag] at hfx
        exact hfx
      have hr' : (pool.mem r).freeword ≠ FREEWORD := by
        simp [liveTag] at hr
        exact hr
      obtain ⟨h1, hWF', hrem'⟩ := part2 pre r post hsplit hpre' hr'
      have hpair : BLI_mempool_iterstep pool it =
          (some r, (iterLoop pool it (it.curchunk.length * pool.pchunk + 1)).2) := by
        rw [hstep]
        exact Prod.ext h1 rfl
      have hpostlen : post.length < n := by
        have := hlen
        rw [hsplit] at this
        simp at this
        omega
      simp only [iterDrain, hpair]
      rw [ih _ hWF' (by rw [hrem']; exact hpostlen) htot, hrem', hpost]

theorem findLoop_spec (pool : BLI_mempool) :
    ∀ (n : Nat) (it : BLI_mempool_iter), ItWF pool it → pool.totused ≠ 0 →
      findLoop pool it n = ((iterRem pool it).filter (liveTag pool))[n]? := by
  intro n
  induction n with
  | zero =>
    intro it hWF htot
    have hfuel : (iterRem pool it).length < it.curchunk.length * pool.pchunk + 1 :=
      Nat.lt_succ_of_le (iterRem_length_le pool it)
    obtain ⟨part1, part2⟩ := iterLoop_spec pool _ it hWF hfuel
    have hstep : BLI_mempool_iterstep pool it =
        iterLoop pool it (it.curchunk.length * pool.pchunk + 1) := by
      rw [BLI_mempool_iterstep, if_neg htot]
    cases hfil : (iterRem pool it).filter (liveTag pool) with
    | nil =>
      have hall : ∀ x ∈ iterRem pool it, (pool.mem x).freeword = FREEWORD := by
        intro x hx
        have hfx := List.filter_eq_nil_iff.1 hfil x hx
        simp [liveTag] at hfx
        exact hfx
      obtain ⟨h1, _, _⟩ := part1 hall
      show (BLI_mempool_iterstep pool it).1 = _
      rw [hstep, h1]
      simp
    | cons r rs =>
      obtain ⟨pre, post, hsplit, hpre, hr, hpost⟩ := List.filter_eq_cons_iff.1 hfil
      have hpre' : ∀ x ∈ pre, (pool.mem x).freeword = FREEWORD := by
        intro x hx
        have hfx := hpre x hx
        simp [liveTag] at hfx
        exact hfx
      have hr' : (pool.mem r).freeword ≠ FREEWORD := by
        simp [liveTag] at hr
        exact hr
      obtain ⟨h1, _, _⟩ := part2 pre r post hsplit hpre' hr'
      show (BLI_mempool_iterstep pool it).1 = _
      rw [hstep, h1]
      simp
  | succ n ih =>
    intro it hWF htot
    have hfuel : (iterRem pool it).length < it.curchunk.length * pool.pchunk + 1 :=
      Nat.lt_succ_of_le (iterRem_length_le pool it)
    obtain ⟨part1, part2⟩ := iterLoop_spec pool _ it hWF hfuel
    have hstep : BLI_mempool_iterstep pool it =
        iterLoop pool it (it.curchunk.length * pool.pchunk + 1) := by
      rw [BLI_mempool_iterstep, if_neg htot]
    cases hfil : (iterRem pool it).filter (liveTag pool) with
    | nil =>
      have hall : ∀ x ∈ iterRem pool it, (pool.mem x).freeword = FREEWORD := by
        intro x hx
        have hfx := List.filter_eq_nil_iff.1 hfil x hx
        simp [liveTag] at hfx
        exact hfx
      obtain ⟨_, hrem0, hWF'⟩ := part1 hall
      show findLoop pool (BLI_mempool_iterstep pool it).2 n = _
      rw [hstep, ih _ hWF' htot, hrem0]
      simp
    | cons r rs =>
      obtain ⟨pre, post, hsplit, hpre, hr, hpost⟩ := List.filter_eq_cons_iff.1 hfil
      have hpre' : ∀ x ∈ pre, (pool.mem x).freeword = FREEWORD := by
        intro x hx
        have hfx := hpre x hx
        simp [liveTag] at hfx
        exact hfx
      have hr' : (pool.mem r).freeword ≠ FREEWORD := by
        simp [liveTag] at hr
        exact hr
      obtain ⟨_, hWF', hrem'⟩ := part2 pre r post hsplit hpre' hr'
      show findLoop pool (BLI_mempool_iterstep pool it).2 n = _
      rw [hstep, ih _ hWF' htot, hrem', hpost]
      simp

theorem iternew_rem (pool : BLI_mempool) :
    iterRem pool (BLI_mempool_iternew pool) = allSlots pool.chunks pool.pchunk :=
  iterRem_zero pool pool.chunks

theorem iterAll_empty (pool : BLI_mempool) (htot : pool.totused = 0) :
    iterAll pool = [] := by
  rw [iterAll]
  simp [iterDrain, BLI_mempool_iterstep, htot]

theorem iterAll_eq_filter (pool : BLI_mempool) (hp : 1 ≤ pool.pchunk)
    (htot : pool.totused ≠ 0) :
    iterAll pool = (allSlots pool.chunks pool.pchunk).filter (liveTag pool) := by
  rw [iterAll,
    iterDrain_spec pool _ (BLI_mempool_iternew pool) (Or.inr hp)
      (by
        rw [iternew_rem, allSlots_length]
        exact Nat.lt_succ_of_le (Nat.le_refl _))
      htot,
    iternew_rem]

/-- Under the tag invariant, the scan test agrees with free-list
membership on every valid slot. -/
theorem filter_liveTag_eq (pool : BLI_mempool) (fl : List Ref)
    (hF : FreeInv pool fl) (ha : pool.allow_iter = true) :
    (allSlots pool.chunks pool.pchunk).filter (liveTag pool) =
      (allSlots pool.chunks pool.pchunk).filter (fun x => decide (x ∉ fl)) := by
  apply List.filter_congr
  intro x hx
  obtain ⟨h1, h2⟩ := (mem_allSlots _ _ _).1 hx
  by_cases hmem : x ∈ fl
  · have hfw := hF.tag_free ha x hmem
    simp [liveTag, hfw, hmem]
  · have hfw := hF.tag_live ha x ⟨h1, h2⟩ hmem
    simp [liveTag, hfw, hmem, USEDWORD, FREEWORD]

/-- The number of live slots equals `totused`. -/
theorem live_filter_length (pool : BLI_mempool) (fl : List Ref)
    (hP : PoolInv pool) (hF : FreeInv pool fl) :
    ((allSlots pool.chunks pool.pchunk).filter (fun x => decide (x ∉ fl))).length =
      pool.totused.toNat := by
  set S := allSlots pool.chunks pool.pchunk with hS
  have hSnd : S.Nodup := allSlots_nodup _ _ hP.chunks_nodup
  have hsub : ∀ x ∈ fl, x ∈ S := by
    intro x hx
    have hv := hF.valid x hx
    exact (mem_allSlots _ _ _).2 ⟨hv.1, hv.2⟩
  have hperm : List.Perm (S.filter (fun x => decide (x ∈ fl))) fl := by
    rw [List.perm_ext_iff_of_nodup (hSnd.filter _) hF.nodup]
    intro a
    simp only [List.mem_filter, decide_eq_true_eq]
    constructor
    · rintro ⟨_, h⟩; exact h
    · intro h; exact ⟨hsub a h, h⟩
  have hflen : (S.filter (fun x => decide (x ∈ fl))).length = fl.length :=
    hperm.length_eq
  have hsplit := List.length_eq_countP_add_countP (fun x => decide (x ∈ fl)) S
  rw [List.countP_eq_length_filter, List.countP_eq_length_filter] at hsplit
  have hcongr : S.filter (fun a => !(decide (a ∈ fl))) =
      S.filter (fun x => decide (x ∉ fl)) := by
    apply List.filter_congr
    intro x _
    by_cases hx : x ∈ fl <;> simp [hx]
  rw [show (fun a => decide ¬(decide (a ∈ fl) = true)) = (fun a => !(decide (a ∈ fl)))
    from by funext a; by_cases hx : a ∈ fl <;> simp [hx]] at hsplit
  rw [hcongr, hflen] at hsplit
  have hlenS : S.length = pool.chunks.length * pool.pchunk := allSlots_length _ _
  have hcount := hF.count
  omega

/-- When `totused = 0`, every valid slot is on the free list. -/
theorem all_free_of_totused_zero (pool : BLI_mempool) (fl : List Ref)
    (_hP : PoolInv pool) (hF : FreeInv pool fl) (htot : pool.totused = 0) :
    ∀ x ∈ allSlots pool.chunks pool.pchunk, x ∈ fl := by
  have hsub : fl ⊆ allSlots pool.chunks pool.pchunk := by
    intro x hx
    have hv := hF.valid x hx
    exact (mem_allSlots _ _ _).2 ⟨hv.1, hv.2⟩
  have hlen : (allSlots pool.chunks pool.pchunk).length ≤ fl.length := by
    rw [allSlots_length]
    have hcount := hF.count
    omega
  have hperm := (List.subperm_of_subset hF.nodup hsub).perm_of_length_le hlen
  intro x hx
  exact hperm.symm.subset hx

/-- Iterating a pool satisfying the invariants yields exactly the live
slots (those not on the free list), in chunk then slot order. -/
theorem iterAll_spec (pool : BLI_mempool) (fl : List Ref)
    (hP : PoolInv pool) (hF : FreeInv pool fl) (ha : pool.allow_iter = true) :
    iterAll pool =
      (allSlots pool.chunks pool.pchunk).filter (fun x => decide (x ∉ fl)) := by
  by_cases htot : pool.totused = 0
  · rw [iterAll_empty pool htot]
    symm
    rw [List.filter_eq_nil_iff]
    intro a hmem
    have hin := all_free_of_totused_zero pool fl hP hF htot a hmem
    simp [hin]
  · rw [iterAll_eq_filter pool hP.pchunk_pos htot, filter_liveTag_eq pool fl hF ha]

theorem findelem_in_range (pool : BLI_mempool) (fl : List Ref)
    (hP : PoolInv pool) (hF : FreeInv pool fl) (ha : pool.allow_iter = true)
    (index : Int) (h0 : 0 ≤ index) (h1 : index < pool.totused) :
    BLI_mempool_findelem pool index =
      ((allSlots pool.chunks pool.pchunk).filter (fun x => decide (x ∉ fl)))[index.toNat]? ∧
    (BLI_mempool_findelem pool index).isSome = true := by
  have htot : pool.totused ≠ 0 := by omega
  have heq : BLI_mempool_findelem pool index =
      ((allSlots pool.chunks pool.pchunk).filter (fun x => decide (x ∉ fl)))[index.toNat]? := by
    rw [BLI_mempool_findelem, if_pos ⟨h0, h1⟩,
      findLoop_spec pool index.toNat (BLI_mempool_iternew pool)
        (Or.inr hP.pchunk_pos) htot, iternew_rem,
      filter_liveTag_eq pool fl hF ha]
  refine ⟨heq, ?_⟩
  rw [heq]
  have hlt : index.toNat <
      ((allSlots pool.chunks pool.pchunk).filter (fun x => decide (x ∉ fl))).length := by
    rw [live_filter_length pool fl hP hF]
    omega
  rw [List.getElem?_eq_getElem hlt]
  rfl

theorem findelem_out_of_range (pool : BLI_mempool) (index : Int)
    (h : ¬ (0 ≤ index ∧ index < pool.totused)) :
    BLI_mempool_findelem pool index = none := by
  rw [BLI_mempool_findelem, if_neg h]

/-! ## Count bookkeeping -/

theorem alloc_totused (pool : BLI_mempool) :
    (BLI_mempool_alloc pool).1.totused = pool.totused + 1 := by
  cases hfree : pool.free with
  | none =>
    rw [alloc_none_eq pool hfree]
    show (mempool_chunk_add
        { pool with totused := pool.totused + 1, nextId := pool.nextId + 1 }
        pool.nextId none).totused = pool.totused + 1
    rw [chunk_add_totused]
  | some r =>
    rw [alloc_some pool r hfree]

theorem free_totused (pool : BLI_mempool) (r : Ref) :
    (BLI_mempool_free pool r).totused = pool.totused - 1 := by
  by_cases h0 : pool.totused - 1 = 0
  · cases hc : pool.chunks with
    | nil => simp [BLI_mempool_free, h0, hc]
    | cons f cs => rw [free_eq_shrink pool r f cs hc h0]
  · rw [free_eq_no_shrink pool r h0]

/-- An interleaving of the two count-changing operations. -/
inductive MempoolOp
  | opAlloc : MempoolOp
  | opFree : Ref → MempoolOp

/-- Run one operation against the pool. -/
def runOp (pool : BLI_mempool) : MempoolOp → BLI_mempool
  | MempoolOp.opAlloc => (BLI_mempool_alloc pool).1
  | MempoolOp.opFree r => BLI_mempool_free pool r

/-- Run a sequence of operations, in order. -/
def runOps (pool : BLI_mempool) : List MempoolOp → BLI_mempool
  | [] => pool
  | op :: ops => runOps (runOp pool op) ops

/-- Number of allocate calls in a sequence. -/
def numAllocs : List MempoolOp → Nat
  | [] => 0
  | MempoolOp.opAlloc :: ops => numAllocs ops + 1
  | MempoolOp.opFree _ :: ops => numAllocs ops

/-- Number of free calls in a sequence. -/
def numFrees : List MempoolOp → Nat
  | [] => 0
  | MempoolOp.opAlloc :: ops => numFrees ops
  | MempoolOp.opFree _ :: ops => numFrees ops + 1

theorem runOps_totused :
    ∀ (ops : List MempoolOp) (pool : BLI_mempool),
      (runOps pool ops).totused =
        pool.totused + (numAllocs ops : Int) - (numFrees ops : Int) := by
  intro ops
  induction ops with
  | nil => intro pool; simp [runOps, numAllocs, numFrees]
  | cons op ops ih =>
    intro pool
    cases op with
    | opAlloc =>
      show (runOps (BLI_mempool_alloc pool).1 ops).totused = _
      rw [ih, alloc_totused]
      simp [numAllocs, numFrees]
      ring
    | opFree r =>
      show (runOps (BLI_mempool_free pool r) ops).totused = _
      rw [ih, free_totused]
      simp [numAllocs, numFrees]
      ring

/-! ## Claim theorems and witnesses -/

/-- Arbitrary (uninitialized) chunk memory used by the concrete examples. -/
def mem0 : Mem := fun _ => { next := none, freeword := 0 }

/-- C1: for every interleaving of allocate and free operations on a pool
created by `BLI_mempool_create`, `BLI_mempool_count` returns the number of
allocate calls performed minus the number of free calls performed —
`BLI_mempool_alloc` increments the live count by exactly one,
`BLI_mempool_free` decrements it by exactly one, and no other operation in
the interleaving changes it. -/
theorem claim_C1_count_invariant (esize : Int) (totelem pchunk : Nat)
    (allow_iter sysmalloc : Bool) (m0 : Mem) (ops : List MempoolOp) :
    BLI_mempool_count
        (runOps (BLI_mempool_create esize totelem pchunk allow_iter sysmalloc m0) ops) =
      (numAllocs ops : Int) - (numFrees ops : Int) := by
  rw [BLI_mempool_count, runOps_totused]
  have h0 : (BLI_mempool_create esize totelem pchunk allow_iter sysmalloc m0).totused
      = 0 := by
    simp only [BLI_mempool_create]
    rw [createChunks_totused]
  rw [h0]
  ring

/-- C4 counterexample: the claim predicts `max(ceil(4 / 4), 1) = 1` chunk
for `initialElementEstimate = 4`, `elementsPerChunk = 4`, but
`BLI_mempool_create` computes `maxchunks = totelem / pchunk + 1` and
allocates 2 chunks. -/
theorem claim_C4_counterexample :
    (BLI_mempool_create 16 4 4 false false mem0).chunks.length = 2 ∧
    ¬ ((BLI_mempool_create 16 4 4 false false mem0).chunks.length =
        max ((4 + 4 - 1) / 4) 1) := by
  rw [create_chunks_length]
  decide

/-- C4 (amended): for every `elementsPerChunk ≥ 1`, `BLI_mempool_create`
allocates exactly `initialElementEstimate / elementsPerChunk + 1` chunks
(truncating division) — one more than the claimed ceiling whenever the
estimate is an exact positive multiple of `elementsPerChunk`, and equal to
`max(ceil, 1)` otherwise. -/
theorem claim_C4_amended (esize : Int) (totelem pchunk : Nat)
    (allow_iter sysmalloc : Bool) (m0 : Mem) (_hp : 1 ≤ pchunk) :
    (BLI_mempool_create esize totelem pchunk allow_iter sysmalloc m0).chunks.length =
      totelem / pchunk + 1 :=
  create_chunks_length esize totelem pchunk allow_iter sysmalloc m0

theorem claim_C4_witness :
    1 ≤ 4 ∧
      (BLI_mempool_create 16 4 4 false false mem0).chunks.length = 4 / 4 + 1 :=
  ⟨by decide, claim_C4_amended 16 4 4 false false mem0 (by decide)⟩

/-- C10: when `BLI_mempool_free(pool, p)` leaves the live count non-zero
(no shrink), the freed slot becomes the free-list head, and the immediately
following `BLI_mempool_alloc` pops and returns exactly `p` — reuse is
last-freed-first. -/
theorem claim_C10_lifo_reuse (pool : BLI_mempool) (p : Ref)
    (h : (BLI_mempool_free pool p).totused ≠ 0) :
    (BLI_mempool_free pool p).free = some p ∧
    (BLI_mempool_alloc (BLI_mempool_free pool p)).2 = p := by
  have h' : ¬ (pool.totused - 1 = 0) := by
    rw [free_totused] at h
    exact h
  rw [free_eq_no_shrink pool p h']
  refine ⟨rfl, ?_⟩
  rw [alloc_some _ p rfl]

def exPoolA : BLI_mempool := BLI_mempool_create 16 0 2 true false mem0

def exPoolB : BLI_mempool := (BLI_mempool_alloc (BLI_mempool_alloc exPoolA).1).1

theorem claim_C10_witness :
    (BLI_mempool_free exPoolB (0, 0)).totused ≠ 0 ∧
    ((BLI_mempool_free exPoolB (0, 0)).free = some (0, 0) ∧
      (BLI_mempool_alloc (BLI_mempool_free exPoolB (0, 0))).2 = (0, 0)) :=
  ⟨by decide, claim_C10_lifo_reuse exPoolB (0, 0) (by decide)⟩

/-- C2: when a `BLI_mempool_free` call brings the live count to zero,
exactly one chunk remains — the chunk that was first before the call — all
of its `pchunk` slots are threaded into the free list, any free-list chain
now lies entirely inside that retained chunk, and the next
`BLI_mempool_alloc` succeeds from slot 0 of that chunk without allocating
a new chunk (chunk list and fresh-id counter unchanged). -/
theorem claim_C2_shrink_on_empty (pool : BLI_mempool) (r : Ref)
    (first : Nat) (rest : List Nat)
    (hp : 1 ≤ pool.pchunk) (hc : pool.chunks = first :: rest)
    (h0 : (BLI_mempool_free pool r).totused = 0) :
    (BLI_mempool_free pool r).chunks = [first] ∧
    isChain (BLI_mempool_free pool r).mem (BLI_mempool_free pool r).free
      (chunkSlots first pool.pchunk) ∧
    (∀ fl, isChain (BLI_mempool_free pool r).mem (BLI_mempool_free pool r).free fl →
      ∀ x ∈ fl, x.1 = first) ∧
    (BLI_mempool_alloc (BLI_mempool_free pool r)).1.chunks = [first] ∧
    (BLI_mempool_alloc (BLI_mempool_free pool r)).1.nextId =
      (BLI_mempool_free pool r).nextId ∧
    (BLI_mempool_alloc (BLI_mempool_free pool r)).2 = (first, 0) := by
  have h0' : pool.totused - 1 = 0 := by
    rw [free_totused] at h0
    exact h0
  have hchain : isChain (BLI_mempool_free pool r).mem (BLI_mempool_free pool r).free
      (chunkSlots first pool.pchunk) := by
    rw [free_eq_shrink pool r first rest hc h0']
    exact rethread_chain first pool.pchunk hp _
  refine ⟨?_, hchain, ?_, ?_, ?_, ?_⟩
  · rw [free_eq_shrink pool r first rest hc h0']
  · intro fl hfl x hx
    rw [isChain_unique _ fl (chunkSlots first pool.pchunk) _ hfl hchain] at hx
    exact ((mem_chunkSlots _ _ _).1 hx).1
  · rw [free_eq_shrink pool r first rest hc h0', alloc_some _ (first, 0) rfl]
  · rw [free_eq_shrink pool r first rest hc h0', alloc_some _ (first, 0) rfl]
  · rw [free_eq_shrink pool r first rest hc h0', alloc_some _ (first, 0) rfl]

def exPoolC2 : BLI_mempool :=
  BLI_mempool_free
    (BLI_mempool_free
      (BLI_mempool_alloc
        (BLI_mempool_alloc
          (BLI_mempool_alloc (BLI_mempool_create 16 0 1 true false mem0)).1).1).1
      (1, 0))
    (2, 0)

theorem claim_C2_witness :
    (1 ≤ exPoolC2.pchunk ∧ exPoolC2.chunks = 0 :: [1, 2] ∧
      (BLI_mempool_free exPoolC2 (0, 0)).totused = 0) ∧
    ((BLI_mempool_free exPoolC2 (0, 0)).chunks = [0] ∧
      isChain (BLI_mempool_free exPoolC2 (0, 0)).mem
        (BLI_mempool_free exPoolC2 (0, 0)).free (chunkSlots 0 exPoolC2.pchunk) ∧
      (∀ fl, isChain (BLI_mempool_free exPoolC2 (0, 0)).mem
          (BLI_mempool_free exPoolC2 (0, 0)).free fl → ∀ x ∈ fl, x.1 = 0) ∧
      (BLI_mempool_alloc (BLI_mempool_free exPoolC2 (0, 0))).1.chunks = [0] ∧
      (BLI_mempool_alloc (BLI_mempool_free exPoolC2 (0, 0))).1.nextId =
        (BLI_mempool_free exPoolC2 (0, 0)).nextId ∧
      (BLI_mempool_alloc (BLI_mempool_free exPoolC2 (0, 0))).2 = (0, 0)) :=
  ⟨⟨by decide, by decide, by decide⟩,
    claim_C2_shrink_on_empty exPoolC2 (0, 0) 0 [1, 2] (by decide) (by decide) (by decide)⟩

/-- C8: immediately after `BLI_mempool_create`, the free list is one
continuous chain containing every slot of every allocated chunk, linked in
chunk-allocation order then in-chunk slot order, with the last chunk's
last slot terminating the list. -/
theorem claim_C8_create_free_chain (esize : Int) (totelem pchunk : Nat)
    (allow_iter sysmalloc : Bool) (m0 : Mem) (hp : 1 ≤ pchunk) :
    isChain (BLI_mempool_create esize totelem pchunk allow_iter sysmalloc m0).mem
      (BLI_mempool_create esize totelem pchunk allow_iter sysmalloc m0).free
      (allSlots (BLI_mempool_create esize totelem pchunk allow_iter sysmalloc m0).chunks
        (BLI_mempool_create esize totelem pchunk allow_iter sysmalloc m0).pchunk) :=
  (create_spec esize totelem pchunk allow_iter sysmalloc m0 hp).2.chain

theorem claim_C8_witness :
    1 ≤ 2 ∧
      isChain (BLI_mempool_create 16 3 2 true false mem0).mem
        (BLI_mempool_create 16 3 2 true false mem0).free
        (allSlots (BLI_mempool_create 16 3 2 true false mem0).chunks
          (BLI_mempool_create 16 3 2 true false mem0).pchunk) :=
  ⟨by decide, claim_C8_create_free_chain 16 3 2 true false mem0 (by decide)⟩

/-- C7: in every state reachable by create (with `ALLOW_ITER`), allocate,
free and clear, the free list is a chain all of whose slots are tagged
`FREEWORD`, and no live (valid, not-on-the-free-list) slot carries the
`FREEWORD` tag — preserved across the shrink path of free (whose
re-threading writes no tags) and across allocate (which overwrites the
popped slot's tag immediately). -/
theorem claim_C7_tag_invariant (pool : BLI_mempool) (h : Reachable pool) :
    ∃ fl, isChain pool.mem pool.free fl ∧
      (∀ r ∈ fl, (pool.mem r).freeword = FREEWORD) ∧
      (∀ r : Ref, validSlot pool r → r ∉ fl → (pool.mem r).freeword ≠ FREEWORD) := by
  obtain ⟨hP, fl, hF⟩ := reachable_inv pool h
  have ha := reachable_allow_iter pool h
  refine ⟨fl, hF.chain, hF.tag_free ha, ?_⟩
  intro r hv hn
  rw [hF.tag_live ha r hv hn]
  decide

theorem claim_C7_witness :
    ∃ fl,
      isChain (BLI_mempool_create 16 0 1 true false mem0).mem
        (BLI_mempool_create 16 0 1 true false mem0).free fl ∧
      (∀ r ∈ fl,
        ((BLI_mempool_create 16 0 1 true false mem0).mem r).freeword = FREEWORD) ∧
      (∀ r : Ref, validSlot (BLI_mempool_create 16 0 1 true false mem0) r → r ∉ fl →
        ((BLI_mempool_create 16 0 1 true false mem0).mem r).freeword ≠ FREEWORD) :=
  claim_C7_tag_invariant (BLI_mempool_create 16 0 1 true false mem0)
    (Reachable.create 16 0 1 false mem0 (by decide))

def exPoolC5 : BLI_mempool := BLI_mempool_create 16 1 1 true false mem0

/-- C5 counterexample: clearing a two-chunk pool retains and reuses the
original first chunk (id 0) — the code does not release the first chunk's
backing storage nor rebuild the free list in a fresh chunk, contrary to
the claim. -/
theorem claim_C5_counterexample :
    exPoolC5.chunks = [0, 1] ∧
    (BLI_mempool_clear exPoolC5).chunks = [0] ∧
    ¬ (∀ c ∈ (BLI_mempool_clear exPoolC5).chunks, c ∉ exPoolC5.chunks) := by
  decide

/-- C5 (amended): `BLI_mempool_clear` releases every chunk except the
first, retains that first chunk (its backing storage is reused, not
released and not fresh), resets the live count to 0, rebuilds the free
list inside the retained chunk (all `pchunk` slots threaded, tags reset
under `ALLOW_ITER`), and leaves the configuration unchanged — so the
result is semantically a freshly created one-chunk pool living in the old
first chunk's storage. -/
theorem claim_C5_amended (pool : BLI_mempool) (hP : PoolInv pool) :
    ∃ first rest, pool.chunks = first :: rest ∧
      (BLI_mempool_clear pool).chunks = [first] ∧
      (BLI_mempool_clear pool).totused = 0 ∧
      (BLI_mempool_clear pool).esize = pool.esize ∧
      (BLI_mempool_clear pool).csize = pool.csize ∧
      (BLI_mempool_clear pool).pchunk = pool.pchunk ∧
      (BLI_mempool_clear pool).allow_iter = pool.allow_iter ∧
      (BLI_mempool_clear pool).sysmalloc = pool.sysmalloc ∧
      (BLI_mempool_clear pool).nextId = pool.nextId ∧
      isChain (BLI_mempool_clear pool).mem (BLI_mempool_clear pool).free
        (chunkSlots first pool.pchunk) ∧
      (pool.allow_iter = true → ∀ x ∈ chunkSlots first pool.pchunk,
        ((BLI_mempool_clear pool).mem x).freeword = FREEWORD) := by
  obtain ⟨first, rest, hc, hPI, hFI⟩ := clear_preserves pool hP
  have hca : (BLI_mempool_clear pool).allow_iter = pool.allow_iter := by
    rw [clear_eq pool first rest hc, chunk_add_allow_iter]
  refine ⟨first, rest, hc, ?_, ?_, ?_, ?_, ?_, hca, ?_, ?_, hFI.chain, ?_⟩
  · rw [clear_eq pool first rest hc, chunk_add_chunks]
    rfl
  · rw [clear_eq pool first rest hc, chunk_add_totused]
  · rw [clear_eq pool first rest hc, chunk_add_esize]
  · rw [clear_eq pool first rest hc, chunk_add_csize]
  · rw [clear_eq pool first rest hc, chunk_add_pchunk]
  · rw [clear_eq pool first rest hc, chunk_add_sysmalloc]
  · rw [clear_eq pool first rest hc, chunk_add_nextId]
  · intro ha x hx
    exact hFI.tag_free (by rw [hca]; exact ha) x hx

theorem claim_C5_witness :
    ∃ first rest, exPoolC5.chunks = first :: rest ∧
      (BLI_mempool_clear exPoolC5).chunks = [first] ∧
      (BLI_mempool_clear exPoolC5).totused = 0 ∧
      (BLI_mempool_clear exPoolC5).esize = exPoolC5.esize ∧
      (BLI_mempool_clear exPoolC5).csize = exPoolC5.csize ∧
      (BLI_mempool_clear exPoolC5).pchunk = exPoolC5.pchunk ∧
      (BLI_mempool_clear exPoolC5).allow_iter = exPoolC5.allow_iter ∧
      (BLI_mempool_clear exPoolC5).sysmalloc = exPoolC5.sysmalloc ∧
      (BLI_mempool_clear exPoolC5).nextId = exPoolC5.nextId ∧
      isChain (BLI_mempool_clear exPoolC5).mem (BLI_mempool_clear exPoolC5).free
        (chunkSlots first exPoolC5.pchunk) ∧
      (exPoolC5.allow_iter = true → ∀ x ∈ chunkSlots first exPoolC5.pchunk,
        ((BLI_mempool_clear exPoolC5).mem x).freeword = FREEWORD) :=
  claim_C5_amended exPoolC5 (create_spec 16 1 1 true false mem0 (by decide)).1

/-- C6: `BLI_mempool_alloc` increments the live count; exactly when the
free list is empty it allocates one new chunk, appends it at the end of
the chunk list, and threads that chunk's slots onto the free list without
touching any memory of the pre-existing chunks; it then removes the head
of the free list, tags that slot with the in-use sentinel when iteration
is enabled, and returns that slot. -/
theorem claim_C6_alloc_spec (pool : BLI_mempool) (hp : 1 ≤ pool.pchunk)
    (hfresh : ∀ c ∈ pool.chunks, c < pool.nextId) :
    (BLI_mempool_alloc pool).1.totused = pool.totused + 1 ∧
    (pool.free = none →
      (BLI_mempool_alloc pool).1.chunks = pool.chunks ++ [pool.nextId] ∧
      (BLI_mempool_alloc pool).1.nextId = pool.nextId + 1 ∧
      (BLI_mempool_alloc pool).2 = (pool.nextId, 0) ∧
      isChain (BLI_mempool_alloc pool).1.mem (BLI_mempool_alloc pool).1.free
        ((chunkSlots pool.nextId pool.pchunk).tail) ∧
      (∀ x : Ref, x.1 ∈ pool.chunks → (BLI_mempool_alloc pool).1.mem x = pool.mem x) ∧
      (pool.allow_iter = true →
        ((BLI_mempool_alloc pool).1.mem (pool.nextId, 0)).freeword = USEDWORD)) ∧
    (∀ h : Ref, pool.free = some h →
      (BLI_mempool_alloc pool).1.chunks = pool.chunks ∧
      (BLI_mempool_alloc pool).1.nextId = pool.nextId ∧
      (BLI_mempool_alloc pool).2 = h ∧
      (BLI_mempool_alloc pool).1.free = (pool.mem h).next ∧
      (∀ x : Ref, x ≠ h → (BLI_mempool_alloc pool).1.mem x = pool.mem x) ∧
      (pool.allow_iter = true →
        ((BLI_mempool_alloc pool).1.mem h).freeword = USEDWORD)) := by
  refine ⟨alloc_totused pool, ?_, ?_⟩
  · intro hfree
    rw [alloc_none_eq pool hfree]
    set nid := pool.nextId with hnid
    set inner : BLI_mempool :=
      { pool with totused := pool.totused + 1, nextId := pool.nextId + 1 } with hinner
    set G := mempool_chunk_add inner nid none with hG
    set M : Mem := if pool.allow_iter then writeFreeword G.mem (nid, 0) USEDWORD else G.mem
      with hM
    have hip : inner.pchunk = pool.pchunk := rfl
    have hMnext : ∀ x : Ref, (M x).next = (G.mem x).next := by
      intro x
      by_cases hai : pool.allow_iter <;> simp [hM, hai, writeFreeword_next]
    have hGother : ∀ x : Ref, x.1 ≠ nid → G.mem x = pool.mem x := by
      intro x hx
      rw [hG, chunk_add_mem_other inner nid none x hx (by intro l hl; cases hl)]
    have htail : (chunkSlots nid pool.pchunk).tail =
        (List.range' 1 (pool.pchunk - 1)).map (fun j => ((nid, j) : Ref)) := by
      rw [chunkSlots_head_tail nid pool.pchunk hp]
      rfl
    have hseg : isChainSeg G.mem (some (nid, 0))
        ((nid, 0) :: (List.range' 1 (pool.pchunk - 1)).map (fun j => ((nid, j) : Ref)))
        none := by
      have hfull := chunk_add_chainSeg inner nid none (by rw [hip]; exact hp)
        (by intro l hl; cases hl)
      rw [hip, chunkSlots_head_tail nid pool.pchunk hp] at hfull
      rw [← hG] at hfull
      exact hfull
    refine ⟨?_, ?_, rfl, ?_, ?_, ?_⟩
    · show G.chunks = pool.chunks ++ [nid]
      rw [hG, chunk_add_chunks]
    · show G.nextId = nid + 1
      rw [hG, chunk_add_nextId]
    · show isChainSeg M ((M (nid, 0)).next) (chunkSlots nid pool.pchunk).tail none
      rw [htail, hMnext (nid, 0)]
      exact isChainSeg_ext G.mem M _ _ none (fun x _ => hMnext x) hseg.2
    · intro x hx
      have hxnid : x.1 ≠ nid := by
        have := hfresh x.1 hx
        omega
      have hne0 : x ≠ (nid, 0) := by
        intro he
        exact hxnid (by rw [he])
      show M x = pool.mem x
      rw [← hGother x hxnid]
      by_cases hai : pool.allow_iter <;>
        simp [hM, hai, writeFreeword_ne _ _ _ _ hne0]
    · intro ha
      show (M (nid, 0)).freeword = USEDWORD
      rw [hM, ha, if_pos rfl, writeFreeword_self]
  · intro h hfree
    rw [alloc_some pool h hfree]
    refine ⟨rfl, rfl, rfl, rfl, ?_, ?_⟩
    · intro x hx
      show ((if pool.allow_iter then writeFreeword pool.mem h USEDWORD else pool.mem) x)
        = pool.mem x
      by_cases hai : pool.allow_iter <;>
        simp [hai, writeFreeword_ne _ _ _ _ hx]
    · intro ha
      show ((if pool.allow_iter then writeFreeword pool.mem h USEDWORD else pool.mem) h).freeword
        = USEDWORD
      rw [ha, if_pos rfl, writeFreeword_self]

theorem claim_C6_witness :
    (1 ≤ exPoolA.pchunk ∧ (∀ c ∈ exPoolA.chunks, c < exPoolA.nextId)) ∧
    ((BLI_mempool_alloc exPoolA).1.totused = exPoolA.totused + 1 ∧
      (exPoolA.free = none →
        (BLI_mempool_alloc exPoolA).1.chunks = exPoolA.chunks ++ [exPoolA.nextId] ∧
        (BLI_mempool_alloc exPoolA).1.nextId = exPoolA.nextId + 1 ∧
        (BLI_mempool_alloc exPoolA).2 = (exPoolA.nextId, 0) ∧
        isChain (BLI_mempool_alloc exPoolA).1.mem (BLI_mempool_alloc exPoolA).1.free
          ((chunkSlots exPoolA.nextId exPoolA.pchunk).tail) ∧
        (∀ x : Ref, x.1 ∈ exPoolA.chunks →
          (BLI_mempool_alloc exPoolA).1.mem x = exPoolA.mem x) ∧
        (exPoolA.allow_iter = true →
          ((BLI_mempool_alloc exPoolA).1.mem (exPoolA.nextId, 0)).freeword = USEDWORD)) ∧
      (∀ h : Ref, exPoolA.free = some h →
        (BLI_mempool_alloc exPoolA).1.chunks = exPoolA.chunks ∧
        (BLI_mempool_alloc exPoolA).1.nextId = exPoolA.nextId ∧
        (BLI_mempool_alloc exPoolA).2 = h ∧
        (BLI_mempool_alloc exPoolA).1.free = (exPoolA.mem h).next ∧
        (∀ x : Ref, x ≠ h → (BLI_mempool_alloc exPoolA).1.mem x = exPoolA.mem x) ∧
        (exPoolA.allow_iter = true →
          ((BLI_mempool_alloc exPoolA).1.mem h).freeword = USEDWORD))) :=
  ⟨⟨by decide, by decide⟩, claim_C6_alloc_spec exPoolA (by decide) (by decide)⟩

/-- C3: for every pool created with `ALLOW_ITER` and every sequence of
allocate/free (and clear) operations, a fresh iterator drained by
`BLI_mempool_iterstep` yields exactly the live slots — the valid slots not
on the free list `fl` — in chunk-allocation order then in-chunk slot
order; the yields number `count()`, are pairwise distinct, and contain no
freed (free-list) slot. -/
theorem claim_C3_iteration_complete (pool : BLI_mempool) (h : Reachable pool) :
    ∃ fl, isChain pool.mem pool.free fl ∧
      iterAll pool =
        (allSlots pool.chunks pool.pchunk).filter (fun x => decide (x ∉ fl)) ∧
      (iterAll pool).length = (BLI_mempool_count pool).toNat ∧
      (iterAll pool).Nodup ∧
      (∀ x ∈ iterAll pool, validSlot pool x ∧ x ∉ fl) ∧
      (∀ x ∈ fl, x ∉ iterAll pool) := by
  obtain ⟨hP, fl, hF⟩ := reachable_inv pool h
  have ha := reachable_allow_iter pool h
  have he := iterAll_spec pool fl hP hF ha
  refine ⟨fl, hF.chain, he, ?_, ?_, ?_, ?_⟩
  · rw [he]
    exact live_filter_length pool fl hP hF
  · rw [he]
    exact (allSlots_nodup _ _ hP.chunks_nodup).filter _
  · intro x hx
    rw [he] at hx
    obtain ⟨hmem, hdec⟩ := List.mem_filter.1 hx
    simp at hdec
    exact ⟨(mem_allSlots _ _ _).1 hmem, hdec⟩
  · intro x hxfl hxall
    rw [he] at hxall
    obtain ⟨_, hdec⟩ := List.mem_filter.1 hxall
    simp at hdec
    exact hdec hxfl

theorem claim_C3_witness :
    ∃ fl,
      isChain (BLI_mempool_create 16 3 2 true false mem0).mem
        (BLI_mempool_create 16 3 2 true false mem0).free fl ∧
      iterAll (BLI_mempool_create 16 3 2 true false mem0) =
        (allSlots (BLI_mempool_create 16 3 2 true false mem0).chunks
            (BLI_mempool_create 16 3 2 true false mem0).pchunk).filter
          (fun x => decide (x ∉ fl)) ∧
      (iterAll (BLI_mempool_create 16 3 2 true false mem0)).length =
        (BLI_mempool_count (BLI_mempool_create 16 3 2 true false mem0)).toNat ∧
      (iterAll (BLI_mempool_create 16 3 2 true false mem0)).Nodup ∧
      (∀ x ∈ iterAll (BLI_mempool_create 16 3 2 true false mem0),
        validSlot (BLI_mempool_create 16 3 2 true false mem0) x ∧ x ∉ fl) ∧
      (∀ x ∈ fl, x ∉ iterAll (BLI_mempool_create 16 3 2 true false mem0)) :=
  claim_C3_iteration_complete (BLI_mempool_create 16 3 2 true false mem0)
    (Reachable.create 16 3 2 false mem0 (by decide))

/-- C9: for every pool created with `ALLOW_ITER` and every sequence of
operations, and every integer `index`, `BLI_mempool_findelem` returns the
element at position `index` of the iteration order when
`0 ≤ index < count()`, and `NULL` for every index outside `[0, count())`,
including negative indices.  The C function only reads the pool, so the
pool state is unchanged by construction (the function is pure in the
embedding). -/
theorem claim_C9_findelem (pool : BLI_mempool) (h : Reachable pool) (index : Int) :
    (0 ≤ index → index < BLI_mempool_count pool →
      BLI_mempool_findelem pool index = (iterAll pool)[index.toNat]? ∧
      (BLI_mempool_findelem pool index).isSome = true) ∧
    ((index < 0 ∨ BLI_mempool_count pool ≤ index) →
      BLI_mempool_findelem pool index = none) := by
  obtain ⟨hP, fl, hF⟩ := reachable_inv pool h
  have ha := reachable_allow_iter pool h
  constructor
  · intro h0 h1
    obtain ⟨he, hs⟩ := findelem_in_range pool fl hP hF ha index h0 h1
    rw [iterAll_spec pool fl hP hF ha]
    exact ⟨he, hs⟩
  · intro hout
    apply findelem_out_of_range
    intro hcon
    rw [BLI_mempool_count] at hout
    rcases hout with hout | hout <;> omega

theorem claim_C9_witness :
    (0 ≤ (-1 : Int) →
      (-1 : Int) < BLI_mempool_count (BLI_mempool_create 16 0 1 true false mem0) →
      BLI_mempool_findelem (BLI_mempool_create 16 0 1 true false mem0) (-1) =
        (iterAll (BLI_mempool_create 16 0 1 true false mem0))[(-1 : Int).toNat]? ∧
      (BLI_mempool_findelem (BLI_mempool_create 16 0 1 true false mem0) (-1)).isSome
        = true) ∧
    (((-1 : Int) < 0 ∨
        BLI_mempool_count (BLI_mempool_create 16 0 1 true false mem0) ≤ (-1 : Int)) →
      BLI_mempool_findelem (BLI_mempool_create 16 0 1 true false mem0) (-1) = none) :=
  claim_C9_findelem (BLI_mempool_create 16 0 1 true false mem0)
    (Reachable.create 16 0 1 false mem0 (by decide)) (-1)
